import Mathlib

/-!
Shallow embedding of the aggregation snowflake model
(src/aggregation/aggregate.py and src/aggregation/tripfreq_runs.py).

Real-valued numpy arithmetic is embedded over the rationals.  Square
roots, which are the only irrational operations the embedded code
performs, are passed in as an explicit function argument so that every
definition stays computable; theorems either hold for every such
function or instantiate it at inputs where the exact rational square
root is taken.  Python exceptions are modelled with Except, and the
numpy infinity used by the placement search with WithTop.
-/

namespace Aggregation

/-- A volume element coordinate triple (one row of the numpy array X);
rationals stand for the floating point reals. -/
abbrev Pt : Type := ℚ × ℚ × ℚ

/-- Extent bookkeeping of an aggregate: per axis the pair (min, max). -/
abbrev Extent : Type := (ℚ × ℚ) × (ℚ × ℚ) × (ℚ × ℚ)

/-- Rational numbers extended with the numpy infinity np.inf. -/
abbrev QInf : Type := WithTop ℚ

/-- Maximum of a rational list with numpy semantics (callers guarantee a
nonempty list; the default is irrelevant there). -/
def npMax (l : List ℚ) : ℚ := l.foldr max (l.headD 0)

/-- Minimum over a list in the extended rationals, numpy np.min with the
convention that an empty or all-infinite list gives np.inf. -/
def minQInf (l : List QInf) : QInf := l.foldr min ⊤

/-- Exact rational square root: exact whenever the numerator and
denominator are perfect squares, which holds at every square root the
concrete runs below take. -/
def ratSqrt (q : ℚ) : ℚ := (Nat.sqrt q.num.toNat : ℚ) / (Nat.sqrt q.den : ℚ)

/-- numpy rounding to the nearest integer, halves to the even integer. -/
def npRound (q : ℚ) : ℤ :=
  let f := ⌊q⌋
  if q - f < 1/2 then f
  else if (1 : ℚ)/2 < q - f then f + 1
  else if Even f then f else f + 1

/-- Aggregate state: the point cloud X, the per element identifier array,
the extent and the monomer counter (Aggregate attributes in
aggregate.py). -/
structure AggState where
  X : List Pt
  ident : List Int
  extent : Extent
  monomer_number : Int
deriving DecidableEq, Repr

/- ------------------------------------------------------------------
C8: the precondition asserts of Aggregate.add_particle
------------------------------------------------------------------ -/

/-- Embedding of the entry segment of Aggregate.add_particle
(aggregate.py lines 337-351).  Before the two assert statements the
function only binds locals (particle measurement, extent of the incoming
particle); it assigns nothing on self, so a failing assert leaves the
aggregate untouched.  The code after the asserts is abstracted as the
continuation rest, so the theorem covers every possible remainder. -/
def add_particle_asserts (st : AggState) (pen_depth_by_mass_fraction : ℚ)
    (rest : AggState → Except String AggState) : Except String AggState :=
  if ¬ (1 < pen_depth_by_mass_fraction) then
    Except.error "AssertionError: pen_depth_by_mass_fraction has to be between ]1,100]"
  else if ¬ (pen_depth_by_mass_fraction ≤ 100) then
    Except.error "AssertionError: pen_depth_by_mass_fraction has to be between ]1,100]"
  else rest st

/- ------------------------------------------------------------------
C4: the monomer counter update of add_particle as used by
generate_aggregate (tripfreq_runs.py)
------------------------------------------------------------------ -/

/-- Python addition of an int and an optional int: adding None raises a
TypeError, modelled as an error result. -/
def pyAddOpt (n : Int) (m : Option Int) : Except String Int :=
  match m with
  | some k => Except.ok (n + k)
  | none => Except.error "TypeError: unsupported operand types for +=: int and NoneType"

/-- Embedding of the monomer count bookkeeping of Aggregate.add_particle:
add_N_monomers defaults to None and is set to 1 only when no particle is
supplied (aggregate.py lines 338-341); on a successful merge line 491
executes monomer_number += add_N_monomers. -/
def add_particle_monomer_update (monomer_number : Int) (particleGiven : Bool)
    (add_N_monomers : Option Int) : Except String Int :=
  let add_N_monomers := if particleGiven then add_N_monomers else some 1
  pyAddOpt monomer_number add_N_monomers

/-- The merge step of generate_aggregate (tripfreq_runs.py line 66) calls
add_particle with particle=agg_btm.X, required=True and pen_depth=80e-6;
it does not pass add_N_monomers, leaving it None. -/
def generate_aggregate_monomer_update (monomer_number : Int) : Except String Int :=
  add_particle_monomer_update monomer_number true none

/- ------------------------------------------------------------------
C2: Aggregate.pen_depth_intersection_mask
------------------------------------------------------------------ -/

/-- The percentile style cutoff computed by pen_depth_intersection_mask
(aggregate.py line 300): the element of the ascending sorted distance
list at index int(len * pen_depth_by_mass_fraction / 100). -/
def distance_limit (distance2center : List ℚ) (pen_depth_by_mass_fraction : ℚ) : ℚ :=
  let sorted := distance2center.insertionSort (fun a b => a ≤ b)
  sorted.getD (⌊(distance2center.length : ℚ) * pen_depth_by_mass_fraction / 100⌋).toNat 0

/-- Embedding of Aggregate.pen_depth_intersection_mask (aggregate.py
lines 295-306).  The numpy stage computing
distance2center = norm(Xp - mean(Xp), axis=1) yields one nonnegative
real per point; the mask logic only compares those distances with each
other, so the embedding takes the distance list itself as the input, the
rationals standing for the real distance values. -/
def pen_depth_intersection_mask (distance2center : List ℚ)
    (pen_depth : ℚ) (pen_depth_by_mass_fraction : ℚ) : List Bool :=
  if 100 ≤ pen_depth_by_mass_fraction then distance2center.map (fun _ => true)
  else
    let dlimit := distance_limit distance2center pen_depth_by_mass_fraction
    let dmax := npMax distance2center
    distance2center.map (fun d => decide (d ≤ dlimit) || decide (d ≤ dmax - pen_depth))

/-- The inclusion rule in the words of claim C2: a point is included iff
it is within pen_depth of the maximum radius shell (its distance from
the centroid is at least max - pen_depth) or inside the inner mass
fraction percentile.  Stated for comparison with the source mask. -/
def claimed_mask_C2 (distance2center : List ℚ)
    (pen_depth : ℚ) (pen_depth_by_mass_fraction : ℚ) : List Bool :=
  let dlimit := distance_limit distance2center pen_depth_by_mass_fraction
  let dmax := npMax distance2center
  distance2center.map (fun d => decide (dmax - d ≤ pen_depth) || decide (d ≤ dlimit))

/- ------------------------------------------------------------------
C7: the N = 0 run of RimedAggregate.add_rime_particles, and the
Aggregate bookkeeping it goes through
------------------------------------------------------------------ -/

/-- Componentwise subtraction on coordinate triples. -/
def ptSub (p q : Pt) : Pt := (p.1 - q.1, p.2.1 - q.2.1, p.2.2 - q.2.2)

/-- Mean of a point cloud, numpy X.mean(0); rational division, with the
empty cloud mapped to the origin (numpy would produce NaN there, but
every caller below recenters nonempty clouds). -/
def cloudMean (X : List Pt) : Pt :=
  let n : ℚ := X.length
  let s := X.foldr (fun p acc => (p.1 + acc.1, p.2.1 + acc.2.1, p.2.2 + acc.2.2))
    ((0 : ℚ), (0 : ℚ), (0 : ℚ))
  if n = 0 then (0, 0, 0) else (s.1 / n, s.2.1 / n, s.2.2 / n)

/-- Embedding of Aggregate.update_extent (aggregate.py lines 116-132):
per axis minimum and maximum, with the degenerate all zero extent for an
empty cloud. -/
def update_extent (X : List Pt) : Extent :=
  match X with
  | [] => ((0, 0), (0, 0), (0, 0))
  | p :: ps =>
    ((ps.foldr (fun q m => min q.1 m) p.1, ps.foldr (fun q m => max q.1 m) p.1),
     (ps.foldr (fun q m => min q.2.1 m) p.2.1, ps.foldr (fun q m => max q.2.1 m) p.2.1),
     (ps.foldr (fun q m => min q.2.2 m) p.2.2, ps.foldr (fun q m => max q.2.2 m) p.2.2))

/-- Embedding of Aggregate.update_coordinates (aggregate.py lines
649-653): subtract the centroid from every point, then recompute the
extent. -/
def update_coordinates (X : List Pt) : List Pt × Extent :=
  let m := cloudMean X
  let X2 := X.map (fun p => ptSub p m)
  (X2, update_extent X2)

/-- The identifier value used for rime elements (RimedAggregate.RIME_IDENT). -/
def RIME_IDENT : Int := -1

/-- Embedding of the N = 0 run of RimedAggregate.add_rime_particles
(aggregate.py lines 790-867): with N = 0 the placement loop body never
executes, added_particles is the empty (0,3) array wired through
Aggregate.add_elements, which appends nothing and then recenters via
update_coordinates.  Returns the new X, the new identifier list and the
new extent. -/
def add_rime_particles_N0 (X : List Pt) (ident : List Int) :
    (List Pt × List Int) × Extent :=
  let X1 := X ++ []
  let ident1 := ident ++ List.replicate 0 RIME_IDENT
  let (X2, ext) := update_coordinates X1
  ((X2, ident1), ext)

/- ------------------------------------------------------------------
C3: min_z_separation and the find_min_distance closure of add_particle
------------------------------------------------------------------ -/

/-- Componentwise addition on coordinate triples. -/
def ptAdd (p q : Pt) : Pt := (p.1 + q.1, p.2.1 + q.2.1, p.2.2 + q.2.2)

/-- Scalar multiple of a coordinate triple. -/
def ptScale (c : ℚ) (p : Pt) : Pt := (c * p.1, c * p.2.1, c * p.2.2)

/-- Squared euclidean norm of a coordinate triple. -/
def normSqr (p : Pt) : ℚ := p.1 ^ 2 + p.2.1 ^ 2 + p.2.2 ^ 2

/-- Squared separation in the x,y plane,
((elems[:,:2] - ref_elem[:2])**2).sum(1) for one element. -/
def xySepSqr (e ref_elem : Pt) : ℚ :=
  (e.1 - ref_elem.1) ^ 2 + (e.2.1 - ref_elem.2.1) ^ 2

/-- Embedding of min_z_separation (aggregate.py lines 36-59).  The real
square root is the explicit argument sqrt; np.inf is the top element of
QInf, produced for an empty element list and for elements not strictly
within the contact radius in the x,y plane, and z_sep.min() is the list
minimum. -/
def min_z_separation (sqrt : ℚ → ℚ) (elems : List Pt) (ref_elem : Pt)
    (grid_res_sqr : ℚ) : QInf :=
  if elems.isEmpty then ⊤
  else
    minQInf (elems.map (fun e =>
      let x_sep_sqr := xySepSqr e ref_elem
      if x_sep_sqr < grid_res_sqr then
        ((e.2.2 - ref_elem.2.2 - sqrt (grid_res_sqr - x_sep_sqr) : ℚ) : QInf)
      else ⊤))

/-- Embedding of the find_min_distance closure in add_particle
(aggregate.py lines 409-419).  The 2-D spatial index lives in the
external index module which is not under src; Modelled from the spec:
section 4.1 makes items_near return a lazy superset of the true radius
matches among the inserted points pc1, so the query is the parameter
near (fed the full element as the source feeds its x,y part),
constrained only in the theorem. -/
def find_min_distance (near : Pt → ℚ → List Pt) (sqrt : ℚ → ℚ)
    (pc2 : List Pt) (epsilon : ℚ) : QInf :=
  pc2.foldl (fun acc elem =>
    min acc (min_z_separation sqrt (near elem epsilon) elem (epsilon ^ 2))) ⊤

/-- The vertical displacement resting the incoming point p just below
the aggregate point q (aggregate.py lines 56-57). -/
def zDisplacement (sqrt : ℚ → ℚ) (q p : Pt) (eps_sqr : ℚ) : ℚ :=
  q.2.2 - p.2.2 - sqrt (eps_sqr - xySepSqr q p)

/-- The required separation of one incoming candidate point p as claim
C3 words it: the extreme displacement (numerically least, i.e. the
deepest required drop) over the aggregate candidates strictly within
the contact radius of p in the x,y plane, infinite when there is
none. -/
def candidate_separation (sqrt : ℚ → ℚ) (pc1 : List Pt) (p : Pt)
    (eps : ℚ) : QInf :=
  minQInf ((pc1.filter (fun q => decide (xySepSqr q p < eps ^ 2))).map
    (fun q => ((zDisplacement sqrt q p (eps ^ 2) : ℚ) : QInf)))

/- ------------------------------------------------------------------
C5: RimedAggregate.compact_rime
------------------------------------------------------------------ -/

/-- The force step of one compact_rime iteration (aggregate.py lines
880-899): the per neighbor contributions summed in the order of
nearest_ind = r_sqr.argsort() (modelled by sorting by squared distance;
the rational sum does not depend on the order), scaled by dr, clamped to
magnitude at most dr, then scaled by grid_res. -/
def compact_force (sqrt : ℚ → ℚ) (grid_res dr : ℚ) (X_near : List Pt)
    (X : Pt) : Pt :=
  let dX := X_near.map (fun n => ptSub n X)
  let pairs := (dX.map (fun d => (d, normSqr d))).insertionSort
    (fun a b => a.2 ≤ b.2)
  let F0 : Pt := pairs.foldl (fun F p =>
    let r_sqr_norm := p.2 / grid_res ^ 2
    let Fi := ptScale (1 / (sqrt p.2 * r_sqr_norm)) p.1
    if 1 < r_sqr_norm then ptAdd F Fi
    else if r_sqr_norm < 1/100 then F
    else ptSub F Fi) (0, 0, 0)
  let F1 : Pt := ptScale dr F0
  let F_abs_sqr : ℚ := normSqr F1
  let F2 : Pt := if dr ^ 2 < F_abs_sqr then ptScale (dr / sqrt F_abs_sqr) F1 else F1
  ptScale grid_res F2

/-- Embedding of the relaxation loop of RimedAggregate.compact_rime
(aggregate.py lines 879-909), one call per remaining iteration of
for it in xrange(max_iters).  X_old is the start point kept for the
displacement budget, and the two break statements return the current
point. -/
def compact_rime_loop (sqrt : ℚ → ℚ) (grid_res : ℚ) (X_near : List Pt)
    (X_old : Pt) (max_dist min_move dr : ℚ) : Nat → Pt → Pt
  | 0, X => X
  | it + 1, X =>
    let X2 : Pt := ptAdd X (compact_force sqrt grid_res dr X_near X)
    let dist_sqr : ℚ := normSqr (ptSub X2 X_old)
    if ((max_dist * grid_res) ^ 2 : ℚ) < dist_sqr / grid_res ^ 2 then
      ptAdd X_old (ptScale (max_dist * grid_res / sqrt dist_sqr) (ptSub X2 X_old))
    else if normSqr (ptSub X2 X) < ((min_move * grid_res) ^ 2 : ℚ) then X2
    else compact_rime_loop sqrt grid_res X_near X_old max_dist min_move dr it X2

/-- Embedding of RimedAggregate.compact_rime (aggregate.py lines
870-911): immediate return for a nonpositive max_dist, otherwise the
relaxation loop starting from X with X_old = X.copy(). -/
def compact_rime (sqrt : ℚ → ℚ) (grid_res : ℚ) (X : Pt) (X_near : List Pt)
    (max_dist min_move dr : ℚ) (max_iters : Nat) : Pt :=
  if max_dist ≤ 0 then X
  else compact_rime_loop sqrt grid_res X_near X max_dist min_move dr max_iters X

/- ------------------------------------------------------------------
C1: Aggregate.grid and the sorted row helpers
------------------------------------------------------------------ -/

/-- A lattice row: one integer coordinate triple of the gridded array. -/
abbrev Row : Type := ℤ × ℤ × ℤ

/-- The row as the coordinate list walked by the recursive comparator. -/
def rowToList (r : Row) : List ℤ := [r.1, r.2.1, r.2.2]

/-- Embedding of compare_row (aggregate.py lines 661-669): recursive
lexicographic comparison returning 1, -1 or 0.  The source would fault
on an empty row; it is only ever applied to length 3 rows, where the
added empty case is unreachable. -/
def compare_row : List ℤ → List ℤ → Int
  | [], _ => 0
  | x :: xs, ys =>
    if x > ys.headD 0 then 1
    else if x < ys.headD 0 then -1
    else if 1 ≤ xs.length then compare_row xs ys.tail
    else 0

/-- Row comparison as the source calls it on two rows. -/
def rowCmp (a b : Row) : Int := compare_row (rowToList a) (rowToList b)

/-- Strict lexicographic order on rows, the relation rowCmp decides. -/
def rowLt (a b : Row) : Prop := rowCmp a b = -1

/-- Nonstrict order on rows: not greater. -/
def rowLe (a b : Row) : Prop := rowCmp a b ≠ 1

instance : DecidableRel rowLt := fun a b =>
  inferInstanceAs (Decidable (rowCmp a b = -1))

instance : DecidableRel rowLe := fun a b =>
  inferInstanceAs (Decidable (rowCmp a b ≠ 1))

/-- np.lexsort((z, y, x)) ordering of the rounded rows: ascending
lexicographic sort on (x, y, z). -/
def np_lexsort (l : List Row) : List Row := l.insertionSort rowLe

/-- Adjacent equal row flags, abs(np.diff(Xc, axis=0)).sum(1) == 0. -/
def adjacentOverlap : List Row → List Bool
  | [] => []
  | [_] => []
  | a :: b :: t => decide (a = b) :: adjacentOverlap (b :: t)

/-- The overlap mask np.hstack((overlap, False)): the adjacent flags
with one trailing False, of length n for n >= 1 rows but of length 1
for the empty array. -/
def overlapMask (l : List Row) : List Bool := adjacentOverlap l ++ [false]

/-- numpy boolean indexing Xc[mask] (tgt = true) and Xc[~mask]
(tgt = false); a mask whose length differs from the row count raises an
IndexError, modelled as none. -/
def boolIndex (l : List Row) (mask : List Bool) (tgt : Bool) :
    Option (List Row) :=
  if l.length = mask.length then
    some (((l.zip mask).filter (fun pr => pr.2 == tgt)).map (fun pr => pr.1))
  else none

/-- The selection underlying boolIndex, as a total function. -/
def selMask (l : List Row) (tgt : Bool) : List Row :=
  ((l.zip (overlapMask l)).filter (fun pr => pr.2 == tgt)).map (fun pr => pr.1)

/-- The binary search loop of row_is_in_sorted_array (aggregate.py
lines 672-684). -/
def row_search_loop (r : List ℤ) (x : List Row) (i0 i1 : Nat) : Bool :=
  if 1 < i1 - i0 then
    if compare_row r (rowToList (x.getD ((i0 + i1) / 2) (0, 0, 0))) = 0 then
      true
    else if compare_row r (rowToList (x.getD ((i0 + i1) / 2) (0, 0, 0))) = 1
      then row_search_loop r x ((i0 + i1) / 2) i1
    else row_search_loop r x i0 ((i0 + i1) / 2)
  else compare_row r (rowToList (x.getD i0 (0, 0, 0))) == 0
termination_by i1 - i0
decreasing_by
  · omega
  · omega

/-- Embedding of row_is_in_sorted_array (aggregate.py lines 672-684). -/
def row_is_in_sorted_array (r : Row) (x : List Row) : Bool :=
  row_search_loop (rowToList r) x 0 x.length

/-- The bisection loop of insert_missing_row_in_sorted_array
(aggregate.py lines 688-696), returning the final (i0, i1). -/
def insert_row_loop (r : List ℤ) (x : List Row) (i0 i1 : Nat) : Nat × Nat :=
  if 1 < i1 - i0 then
    if compare_row r (rowToList (x.getD ((i0 + i1) / 2) (0, 0, 0))) = 1 then
      insert_row_loop r x ((i0 + i1) / 2) i1
    else insert_row_loop r x i0 ((i0 + i1) / 2)
  else (i0, i1)
termination_by i1 - i0
decreasing_by
  · omega
  · omega

/-- Embedding of insert_missing_row_in_sorted_array (aggregate.py lines
687-702): bisect, pick the insertion index, and vstack the row there. -/
def insert_missing_row_in_sorted_array (r : Row) (x : List Row) : List Row :=
  let p := insert_row_loop (rowToList r) x 0 x.length
  let insert_ind : Nat :=
    if 1 < p.2 then p.2
    else if compare_row (rowToList r) (rowToList (x.getD p.1 (0, 0, 0))) = 1
      then 1 else 0
  x.take insert_ind ++ [r] ++ x.drop insert_ind

/-- list(xrange(-cube_rad, cube_rad + 1)). -/
def irange (cube_rad : Nat) : List ℤ :=
  (List.range (2 * cube_rad + 1)).map (fun k : Nat => (k : ℤ) - cube_rad)

/-- Embedding of outer_layer_of_cube (aggregate.py lines 705-719): the
coordinates on the outer layer of the cube of side 2 * cube_rad + 1
centered at the origin. -/
def outer_layer_of_cube (cube_rad : Nat) : List Row :=
  (irange cube_rad).flatMap (fun dx =>
    (irange cube_rad).flatMap (fun dy =>
      (if dx.natAbs = cube_rad ∨ dy.natAbs = cube_rad then irange cube_rad
       else [-(cube_rad : ℤ), (cube_rad : ℤ)]).map (fun dz => (dx, dy, dz))))

/-- The generator neighbors_by_distance (aggregate.py lines 722-727)
yields the cube shells of radius 1, 2, 3, ... in order; the embedding
materializes the first maxRad shells, which is enough because Xc.length
plus one shells always hold a free cell. -/
def neighbors_by_distance_upTo (maxRad : Nat) : List Row :=
  (List.range maxRad).flatMap (fun k => outer_layer_of_cube (k + 1))

/-- The Chebyshev norm separating the cube shells. -/
def chebNorm (p : Row) : Nat :=
  max p.1.natAbs (max p.2.1.natAbs p.2.2.natAbs)

/-- The relocation of one duplicate row (aggregate.py lines 593-599):
the first shell cell, in generator order, that is not already present;
none when the bounded shell list is exhausted (proved impossible). -/
def relocate_one (Xm : Row) (Xc : List Row) : Option Row :=
  ((neighbors_by_distance_upTo (Xc.length + 1)).map
    (fun dX => (Xm.1 + dX.1, Xm.2.1 + dX.2.1, Xm.2.2 + dX.2.2))).find?
    (fun X => !(row_is_in_sorted_array X Xc))

/-- The relocation loop over the shuffled duplicate rows (aggregate.py
lines 593-599): each found free cell is inserted into the sorted kept
array; an exhausted (impossible) search skips the row. -/
def grid_relocate : List Row → List Row → List Row
  | [], Xc => Xc
  | m :: ms, Xc =>
    match relocate_one m Xc with
    | some X => grid_relocate ms (insert_missing_row_in_sorted_array X Xc)
    | none => grid_relocate ms Xc

/-- The rounding step of Aggregate.grid: coordinates to lattice
multiples of res (numpy round, halves to even). -/
def gridRound (res : ℚ) (p : Pt) : Row :=
  (npRound (p.1 / res), npRound (p.2.1 / res), npRound (p.2.2 / res))

/-- Embedding of Aggregate.grid (aggregate.py lines 554-601): round,
lexsort, separate duplicate rows from kept rows with the overlap mask
(on the empty cloud the mask has length 1 and numpy boolean indexing
raises, modelled as none), shuffle the duplicates (np.random.shuffle is
the shuffle parameter, an arbitrary permutation in the theorem), and
relocate each duplicate into a nearby free cell. -/
def aggregate_grid (X : List Pt) (res : ℚ)
    (shuffle : List Row → List Row) : Option (List Row) :=
  let Xc0 : List Row := X.map (gridRound res)
  let XcS := np_lexsort Xc0
  let mask := overlapMask XcS
  match boolIndex XcS mask true, boolIndex XcS mask false with
  | some Xc_overlap, some Xc => some (grid_relocate (shuffle Xc_overlap) Xc)
  | _, _ => none

/- ------------------------------------------------------------------
C9: the identifier bookkeeping of the point cloud mutators
------------------------------------------------------------------ -/

/-- The ident argument of add_elements: the scalar default or a caller
supplied array (numpy accepts both as np.full fill values). -/
inductive IdentFill where
  | scalar (v : Int)
  | arr (l : List Int)
deriving Repr, DecidableEq

/-- numpy np.full(n, fill): a scalar is repeated n times; an array fill
value is broadcast into the n slots, which succeeds when its length is
n (copied) or 1 (repeated) and raises a ValueError otherwise. -/
def npFull (n : Nat) (f : IdentFill) : Except String (List Int) :=
  match f with
  | .scalar v => .ok (List.replicate n v)
  | .arr l =>
    if l.length = n then .ok l
    else if l.length = 1 then .ok (List.replicate n (l.headD 0))
    else .error "ValueError: could not broadcast fill value"

/-- Embedding of Aggregate.__init__ (aggregate.py lines 105-113) on the
generated cloud: one identifier per generated row, extent updated, and
the monomer counter starts at 1. -/
def aggregate_init (generated : List Pt) (ident : Int) : AggState :=
  { X := generated
    ident := List.replicate generated.length ident
    extent := update_extent generated
    monomer_number := 1 }

/-- Embedding of Aggregate.add_elements (aggregate.py lines 604-624):
line 620 vstacks the rows into self.X FIRST, line 621-622 then hstacks
np.full(N, ident); when np.full raises the ValueError on a
non-broadcastable ident array, self.X has already been extended and
self.ident is left stale, so the call returns the mutated state
together with the raised exception (second component). -/
def add_elements (st : AggState) (added_elements : List Pt)
    (ident : IdentFill) (update : Bool) : AggState × Option String :=
  let X2 := st.X ++ added_elements
  match npFull added_elements.length ident with
  | .error e => ({ st with X := X2 }, some e)
  | .ok idents =>
    let ident2 := st.ident ++ idents
    if update then
      ({ X := (update_coordinates X2).1, ident := ident2,
         extent := (update_coordinates X2).2,
         monomer_number := st.monomer_number }, none)
    else
      ({ st with X := X2, ident := ident2 }, none)

/-- The keep mask of Aggregate.remove_elements (aggregate.py lines
638-642): an element is dropped iff some removed coordinate lies within
squared distance grid_res^2 * tolerance of it. -/
def remove_keep (X : List Pt) (removed : List Pt)
    (grid_res tolerance : ℚ) : List Bool :=
  X.map (fun p => decide (∀ re ∈ removed,
    ¬ (normSqr (ptSub p re) < grid_res ^ 2 * tolerance)))

/-- Filtering a list by a parallel boolean mask (numpy boolean
indexing with a mask of matching length). -/
def maskSelect {α : Type} (l : List α) (mask : List Bool) : List α :=
  ((l.zip mask).filter (fun pr => pr.2)).map (fun pr => pr.1)

/-- Embedding of Aggregate.remove_elements (aggregate.py lines
627-646): the dead line 641 min_dist = dist_sqr.argmin() raises a
ValueError when the cloud is empty and the removal list is not (argmin
of an empty sequence), before any assignment, so the state is returned
unchanged with the exception; otherwise apply the same keep mask to X
and to ident, then recenter when update is set. -/
def remove_elements (st : AggState) (removed : List Pt)
    (grid_res tolerance : ℚ) (update : Bool) : AggState × Option String :=
  if st.X = [] ∧ removed ≠ [] then
    (st, some "ValueError: attempt to get argmin of an empty sequence")
  else
    let keep := remove_keep st.X removed grid_res tolerance
    let X2 := maskSelect st.X keep
    let ident2 := maskSelect st.ident keep
    if update then
      ({ X := (update_coordinates X2).1, ident := ident2,
         extent := (update_coordinates X2).2,
         monomer_number := st.monomer_number }, none)
    else ({ st with X := X2, ident := ident2 }, none)

/-- The successful commit of add_particle (aggregate.py lines 488-490):
ident defaults to np.zeros(N) for the shifted cloud, then add_elements
appends it (the monomer counter bookkeeping is modelled separately). -/
def add_particle_commit (st : AggState) (p_shift : List Pt)
    (ident : Option (List Int)) : AggState × Option String :=
  let identArr := match ident with
    | none => List.replicate p_shift.length 0
    | some l => l
  add_elements st p_shift (IdentFill.arr identArr) true

/-- The commit of add_rime_particles (aggregate.py line 867): the added
batch shares the rime identifier sentinel. -/
def add_rime_commit (st : AggState) (added_particles : List Pt) :
    AggState × Option String :=
  add_elements st added_particles (IdentFill.scalar RIME_IDENT) true

/-- The identifier bookkeeping invariant: one identifier per row of X. -/
def identWf (st : AggState) : Prop := st.ident.length = st.X.length

/-- A concrete one element aggregate state used as the witness input. -/
def wstate : AggState := ⟨[((1 : ℚ), 2, 3)], [7], ((1, 1), (2, 2), (3, 3)), 1⟩

/- ------------------------------------------------------------------
C6: the site scan of RimedAggregate.add_rime_particles
------------------------------------------------------------------ -/

/-- Python bisect_left on an ascending list: the index of the first
element not less than x. -/
def bisect_left (l : List ℚ) (x : ℚ) : Nat :=
  (l.takeWhile (fun z => decide (z < x))).length

/-- Embedding of spheres_overlap (aggregate.py lines 656-658). -/
def spheres_overlap (X0 X1 : Pt) (r_sqr : ℚ) : Bool :=
  decide ((X1.1 - X0.1) ^ 2 + (X1.2.1 - X0.2.1) ^ 2 + (X1.2.2 - X0.2.2) ^ 2 < r_sqr)

/-- The two tangential contact heights (z_upper, z_lower) of scan
candidate i (aggregate.py lines 815-818). -/
def rime_z_contact (sqrt : ℚ → ℚ) (oX : List Pt) (xs ys grid_res : ℚ)
    (i : Nat) : ℚ × ℚ :=
  let p := oX.getD i (0, 0, 0)
  let d_sqr := (p.1 - xs) ^ 2 + (p.2.1 - ys) ^ 2
  let dz := sqrt (grid_res ^ 2 - d_sqr)
  (p.2.2 + dz, p.2.2 - dz)

/-- The third sphere overlap test of the site scan (aggregate.py lines
825-836) at height zc: bisect the sorted z array to the window around
zc and test true sphere overlap against every element there except i
itself. -/
def rime_overlap_at (oX : List Pt) (oz : List ℚ) (i : Nat)
    (xs ys zc grid_res : ℚ) : Bool :=
  let j0 := bisect_left oz (zc - grid_res)
  let j1 := bisect_left oz (zc + grid_res)
  (List.range' j0 (j1 - j0)).any (fun j =>
    decide (j ≠ i) && spheres_overlap (oX.getD j (0, 0, 0)) (xs, ys, zc)
      (grid_res ^ 2))

/-- One candidate of the site scan (aggregate.py lines 814-841) at index
i: try the upper contact, then the lower contact; the test
(i == 0 and zc == z_lower) breaks out of the height loop with
overlap = False, accepting without the overlap test.  The zc loop is
unrolled into the four cases in source order. -/
def rime_try_candidate (sqrt : ℚ → ℚ) (oX : List Pt) (oz : List ℚ)
    (xs ys grid_res : ℚ) (i : Nat) : Option ℚ :=
  let zu := (rime_z_contact sqrt oX xs ys grid_res i).1
  let zl := (rime_z_contact sqrt oX xs ys grid_res i).2
  if i = 0 ∧ zu = zl then some zu
  else if ¬ rime_overlap_at oX oz i xs ys zu grid_res then some zu
  else if i = 0 then some zl
  else if ¬ rime_overlap_at oX oz i xs ys zl grid_res then some zl
  else none

/-- The downward scan for i in xrange(last_ind - 1, -1, -1)
(aggregate.py line 814), starting at the argument index. -/
def rime_scan (sqrt : ℚ → ℚ) (oX : List Pt) (oz : List ℚ)
    (xs ys grid_res : ℚ) : Nat → Option ℚ
  | 0 => rime_try_candidate sqrt oX oz xs ys grid_res 0
  | i + 1 =>
    match rime_try_candidate sqrt oX oz xs ys grid_res (i + 1) with
    | some zc => some zc
    | none => rime_scan sqrt oX oz xs ys grid_res i

/-- The bound last_ind of the accepted candidate window: the number of
overlapping elements with z below the lowest z plus pen_depth
(aggregate.py lines 807-808). -/
def rime_last_ind (overlapping_X : List Pt) (pen_depth : ℚ) : Nat :=
  let sorted := overlapping_X.insertionSort (fun a b => a.2.2 ≤ b.2.2)
  bisect_left (sorted.map (fun p => p.2.2))
    ((sorted.headD (0, 0, 0)).2.2 + pen_depth)

/-- The site search of one random draw of add_rime_particles
(aggregate.py lines 801-841), with compact_dist = 0 so no compacting:
sort the overlapping elements by z, bound the accepted window by
pen_depth (last_ind) and the searched window one grid_res further
(last_search_ind), truncate, then scan the accepted candidates from the
penetration boundary downward; the none result models falling through
to the next random draw of the enclosing while loop. -/
def rime_site_search (sqrt : ℚ → ℚ) (overlapping_X : List Pt)
    (xs ys pen_depth grid_res : ℚ) : Option Pt :=
  let sorted := overlapping_X.insertionSort (fun a b => a.2.2 ≤ b.2.2)
  match sorted with
  | [] => none
  | c0 :: _ =>
    let zs := sorted.map (fun p => p.2.2)
    let last_ind := bisect_left zs (c0.2.2 + pen_depth)
    let last_search_ind := bisect_left zs (c0.2.2 + pen_depth + grid_res)
    let oX := sorted.take (last_search_ind + 1)
    let oz := oX.map (fun p => p.2.2)
    if last_ind = 0 then none
    else
      match rime_scan sqrt oX oz xs ys grid_res (last_ind - 1) with
      | some zc => some (xs, ys, zc)
      | none => none

/- ------------------------------------------------------------------
C10: Aggregate.project_on_dim with a direction
------------------------------------------------------------------ -/

/-- A 3x3 rational matrix given by its three rows. -/
abbrev Mat3 : Type := Pt × Pt × Pt

/-- Row vector times matrix: one row of the numpy product X.dot(R). -/
def vecMulMat (v : Pt) (M : Mat3) : Pt :=
  (v.1 * M.1.1 + v.2.1 * M.2.1.1 + v.2.2 * M.2.2.1,
   v.1 * M.1.2.1 + v.2.1 * M.2.1.2.1 + v.2.2 * M.2.2.2.1,
   v.1 * M.1.2.2 + v.2.1 * M.2.1.2.2 + v.2.2 * M.2.2.2.2)

/-- Matrix transpose. -/
def matT (M : Mat3) : Mat3 :=
  ((M.1.1, M.2.1.1, M.2.2.1),
   (M.1.2.1, M.2.1.2.1, M.2.2.2.1),
   (M.1.2.2, M.2.1.2.2, M.2.2.2.2))

/-- Matrix product, rowwise. -/
def matMul (A B : Mat3) : Mat3 :=
  (vecMulMat A.1 B, vecMulMat A.2.1 B, vecMulMat A.2.2 B)

/-- The 3x3 identity matrix. -/
def idMat3 : Mat3 := ((1, 0, 0), (0, 1, 0), (0, 0, 1))

/-- Projection grid: the numpy 0/1 array abstracted by its shape
(x_max+1, y_max+1) and the list of index pairs set to 1. -/
abbrev ProjGrid : Type := (Int × Int) × List (Int × Int)

/-- The try body of project_on_dim for dim = 0 (aggregate.py lines
166-184): pixel coordinates from the y and z coordinates relative to the
extent minima, failing like numpy max on an empty cloud. -/
def project_body_dim0 (X : List Pt) (ext : Extent) (grid_res : ℚ) :
    Except String ProjGrid :=
  match X with
  | [] => Except.error "ValueError: max of an empty array"
  | _ =>
    let xp := X.map (fun p => (p.2.1 - ext.2.1.1) / grid_res)
    let yp := X.map (fun p => (p.2.2 - ext.2.2.1) / grid_res)
    Except.ok ((npRound (npMax xp) + 1, npRound (npMax yp) + 1),
      (xp.map npRound).zip (yp.map npRound))

/-- Embedding of Aggregate.project_on_dim (aggregate.py lines 159-191)
when direction is not None.  The external rotator module is not under
src; Modelled from the spec: section 6 requires the Rotator to produce a
3-D rotation that can be applied and inverted, so the matrix R built
from the Euler angles is an arbitrary matrix parameter whose
orthogonality is the hypothesis of the theorem.  dim is forced to 0, X
is rotated in place and the extent updated, the body computes the
projection (raising exactly on an empty cloud), and the finally block
multiplies by the transpose and recomputes the extent whether or not
the body raised. -/
def project_on_dim_direction (X : List Pt) (grid_res : ℚ) (R : Mat3) :
    Except String ProjGrid × (List Pt × Extent) :=
  let X1 := X.map (fun v => vecMulMat v R)
  let ext := update_extent X1
  let body := project_body_dim0 X1 ext grid_res
  let X2 := X1.map (fun v => vecMulMat v (matT R))
  (body, (X2, update_extent X2))

end Aggregation

/- ==================================================================
THEOREMS
================================================================== -/

namespace Aggregation

/-- C8: for every call of add_particle with pen_depth_by_mass_fraction
outside the interval (1, 100], the assert block rejects the call before
any placement is attempted, whatever the rest of the function would do,
and no modified aggregate state is ever produced. -/
theorem add_particle_rejects_bad_mass_fraction (st : AggState) (mf : ℚ)
    (rest : AggState → Except String AggState) (h : mf ≤ 1 ∨ 100 < mf) :
    add_particle_asserts st mf rest =
      Except.error "AssertionError: pen_depth_by_mass_fraction has to be between ]1,100]" ∧
    ∀ st2 : AggState, add_particle_asserts st mf rest ≠ Except.ok st2 := by
  have hstep : add_particle_asserts st mf rest =
      Except.error "AssertionError: pen_depth_by_mass_fraction has to be between ]1,100]" := by
    rcases h with h | h
    · have : ¬ (1 < mf) := not_lt.mpr h
      simp [add_particle_asserts, this]
    · have h1 : ¬ (mf ≤ 100) := not_le.mpr h
      by_cases h2 : 1 < mf
      · simp [add_particle_asserts, h2, h1]
      · simp [add_particle_asserts, h2]
  exact ⟨hstep, fun st2 hok => by simp [hstep] at hok⟩

/-- Witness for C8 at the concrete mass fraction 0 on a concrete state. -/
theorem add_particle_rejects_bad_mass_fraction_witness :
    add_particle_asserts ⟨[(1, 2, 3)], [0], ((1, 1), (2, 2), (3, 3)), 1⟩ 0 Except.ok =
      Except.error "AssertionError: pen_depth_by_mass_fraction has to be between ]1,100]" ∧
    ∀ st2 : AggState,
      add_particle_asserts ⟨[(1, 2, 3)], [0], ((1, 1), (2, 2), (3, 3)), 1⟩ 0 Except.ok ≠
        Except.ok st2 :=
  add_particle_rejects_bad_mass_fraction _ 0 Except.ok (Or.inl (by norm_num))

/-- C4: the merge step of generate_aggregate supplies a particle but no
add_N_monomers, so after a successful placement the update
monomer_number += add_N_monomers adds None to an int and raises a
TypeError instead of incrementing the survivor count; the build can
therefore never reach monomer_number == N. -/
theorem generate_aggregate_monomer_update_raises (n : Int) :
    generate_aggregate_monomer_update n =
      Except.error "TypeError: unsupported operand types for +=: int and NoneType" := rfl

/-- Every member bounds the list minimum from above. -/
theorem minQInf_le_of_mem {l : List QInf} {x : QInf} (hx : x ∈ l) :
    minQInf l ≤ x := by
  induction l with
  | nil => cases hx
  | cons a t ih =>
    rcases List.mem_cons.mp hx with h | h
    · rw [h]
      exact min_le_left _ _
    · exact le_trans (min_le_right _ _) (ih h)

/-- A lower bound of all members bounds the list minimum from below. -/
theorem le_minQInf {l : List QInf} {a : QInf} (h : ∀ x ∈ l, a ≤ x) :
    a ≤ minQInf l := by
  induction l with
  | nil => exact le_top
  | cons b t ih =>
    exact le_min (h b (List.mem_cons_self b t))
      (ih fun x hx => h x (List.mem_cons_of_mem b hx))

/-- The list minimum is infinite or attained by a member. -/
theorem minQInf_eq_top_or_mem (l : List QInf) :
    minQInf l = ⊤ ∨ minQInf l ∈ l := by
  induction l with
  | nil => exact Or.inl rfl
  | cons a t ih =>
    have hm : minQInf (a :: t) = min a (minQInf t) := rfl
    rcases min_choice a (minQInf t) with h | h
    · right
      rw [hm, h]
      exact List.mem_cons_self a t
    · rcases ih with h2 | h2
      · left
        rw [hm, h, h2]
      · right
        rw [hm, h]
        exact List.mem_cons_of_mem a h2

/-- Monotonicity of the list minimum under list inclusion. -/
theorem minQInf_le_minQInf {A B : List QInf} (h : ∀ x ∈ A, x ∈ B) :
    minQInf B ≤ minQInf A :=
  le_minQInf fun x hx => minQInf_le_of_mem (h x hx)

/-- Lists with the same members have the same minimum. -/
theorem minQInf_eq_of_mem_iff {A B : List QInf} (h : ∀ x, x ∈ A ↔ x ∈ B) :
    minQInf A = minQInf B :=
  le_antisymm (minQInf_le_minQInf fun x hx => (h x).mpr hx)
    (minQInf_le_minQInf fun x hx => (h x).mp hx)

/-- Members mapped to infinity do not change a list minimum: mapping
everything equals mapping only the filtered members. -/
theorem minQInf_map_eq_filter {α : Type} (f g : α → QInf) (P : α → Bool)
    (hg : ∀ x, P x = true → f x = g x) (ht : ∀ x, P x = false → f x = ⊤)
    (l : List α) :
    minQInf (l.map f) = minQInf ((l.filter P).map g) := by
  induction l with
  | nil => rfl
  | cons a t ih =>
    by_cases h : P a = true
    · have h1 : minQInf ((a :: t).map f) = min (f a) (minQInf (t.map f)) := rfl
      rw [h1, List.filter_cons_of_pos h, List.map_cons]
      have h2 : minQInf (g a :: (t.filter P).map g) =
          min (g a) (minQInf ((t.filter P).map g)) := rfl
      rw [h2, hg a h, ih]
    · have h0 : P a = false := Bool.eq_false_iff.mpr h
      have h1 : minQInf ((a :: t).map f) = min (f a) (minQInf (t.map f)) := rfl
      rw [h1, ht a h0, List.filter_cons_of_neg (by simp [h0]), ← ih]
      exact min_eq_right le_top

/-- A left fold of min with a starting accumulator is the min of the
accumulator and the list minimum. -/
theorem foldl_min_eq {α : Type} (h : α → QInf) (l : List α) (a : QInf) :
    l.foldl (fun acc e => min acc (h e)) a = min a (minQInf (l.map h)) := by
  induction l generalizing a with
  | nil => exact (min_eq_left le_top).symm
  | cons x t ih =>
    rw [List.foldl_cons, ih, List.map_cons]
    have h2 : minQInf (h x :: t.map h) = min (h x) (minQInf (t.map h)) := rfl
    rw [h2, min_assoc]

/-- The element level agreement between min_z_separation fed by the
spatial index and the per candidate separation over the true radius
matches in pc1: whenever the index query returns a superset of the
radius matches drawn from the inserted points, the two minima agree. -/
theorem min_z_separation_eq_candidate (sqrt : ℚ → ℚ) (pc1 nearList : List Pt)
    (p : Pt) (eps : ℚ)
    (hsub : ∀ q ∈ nearList, q ∈ pc1)
    (hsup : ∀ q ∈ pc1, xySepSqr q p < eps ^ 2 → q ∈ nearList) :
    min_z_separation sqrt nearList p (eps ^ 2) =
      candidate_separation sqrt pc1 p eps := by
  have hstep : minQInf (nearList.map (fun e =>
      if xySepSqr e p < eps ^ 2 then
        ((e.2.2 - p.2.2 - sqrt (eps ^ 2 - xySepSqr e p) : ℚ) : QInf)
      else ⊤)) = candidate_separation sqrt pc1 p eps := by
    rw [minQInf_map_eq_filter
      (fun e => if xySepSqr e p < eps ^ 2 then
        ((e.2.2 - p.2.2 - sqrt (eps ^ 2 - xySepSqr e p) : ℚ) : QInf) else ⊤)
      (fun q => ((zDisplacement sqrt q p (eps ^ 2) : ℚ) : QInf))
      (fun q => decide (xySepSqr q p < eps ^ 2))
      (fun x hx => by
        have hlt : xySepSqr x p < eps ^ 2 := of_decide_eq_true hx
        simp [if_pos hlt, zDisplacement])
      (fun x hx => by
        have hlt : ¬ xySepSqr x p < eps ^ 2 := of_decide_eq_false hx
        simp [if_neg hlt])
      nearList]
    unfold candidate_separation
    apply minQInf_eq_of_mem_iff
    intro x
    constructor
    · intro hx
      rcases List.mem_map.mp hx with ⟨q, hq, hgq⟩
      rcases List.mem_filter.mp hq with ⟨hqn, hqP⟩
      exact List.mem_map.mpr ⟨q, List.mem_filter.mpr ⟨hsub q hqn, hqP⟩, hgq⟩
    · intro hx
      rcases List.mem_map.mp hx with ⟨q, hq, hgq⟩
      rcases List.mem_filter.mp hq with ⟨hq1, hqP⟩
      exact List.mem_map.mpr
        ⟨q, List.mem_filter.mpr ⟨hsup q hq1 (of_decide_eq_true hqP), hqP⟩, hgq⟩
  by_cases he : nearList.isEmpty
  · have hnil : nearList = [] := List.isEmpty_iff.mp he
    have hf : pc1.filter (fun q => decide (xySepSqr q p < eps ^ 2)) = [] := by
      rw [List.filter_eq_nil_iff]
      intro q hq hP
      have := hsup q hq (of_decide_eq_true hP)
      rw [hnil] at this
      cases this
    unfold min_z_separation candidate_separation
    rw [if_pos he, hf]
    rfl
  · unfold min_z_separation
    rw [if_neg he]
    exact hstep

/-- C3: the overall z shift computed by find_min_distance is the minimum
over all incoming candidate points of the per candidate required
separation; the per candidate separation is infinite exactly when no
aggregate candidate lies strictly within the contact radius in the x,y
plane, and when finite it is the deepest required drop: the numerically
least resting displacement over the aggregate candidates within the
contact radius, attained by one of them and bounding all of them from
below. -/
theorem find_min_distance_spec (near : Pt → ℚ → List Pt) (sqrt : ℚ → ℚ)
    (pc1 pc2 : List Pt) (eps : ℚ)
    (hsub : ∀ p ∈ pc2, ∀ q ∈ near p eps, q ∈ pc1)
    (hsup : ∀ p ∈ pc2, ∀ q ∈ pc1, xySepSqr q p < eps ^ 2 → q ∈ near p eps) :
    find_min_distance near sqrt pc2 eps =
      minQInf (pc2.map (fun p => candidate_separation sqrt pc1 p eps)) ∧
    (∀ p : Pt, pc1.filter (fun q => decide (xySepSqr q p < eps ^ 2)) = [] →
      candidate_separation sqrt pc1 p eps = ⊤) ∧
    (∀ p : Pt, ∀ d : ℚ, candidate_separation sqrt pc1 p eps = (d : QInf) →
      (∃ q ∈ pc1, xySepSqr q p < eps ^ 2 ∧
        zDisplacement sqrt q p (eps ^ 2) = d) ∧
      ∀ q ∈ pc1, xySepSqr q p < eps ^ 2 →
        (d : QInf) ≤ ((zDisplacement sqrt q p (eps ^ 2) : ℚ) : QInf)) := by
  refine ⟨?_, ?_, ?_⟩
  · unfold find_min_distance
    rw [foldl_min_eq, min_eq_right le_top]
    congr 1
    apply List.map_congr_left
    intro p hp
    exact min_z_separation_eq_candidate sqrt pc1 (near p eps) p eps
      (hsub p hp) (hsup p hp)
  · intro p hf
    unfold candidate_separation
    rw [hf]
    rfl
  · intro p d hd
    have hmem : (d : QInf) ∈ (pc1.filter
        (fun q => decide (xySepSqr q p < eps ^ 2))).map
        (fun q => ((zDisplacement sqrt q p (eps ^ 2) : ℚ) : QInf)) := by
      rcases minQInf_eq_top_or_mem ((pc1.filter
          (fun q => decide (xySepSqr q p < eps ^ 2))).map
          (fun q => ((zDisplacement sqrt q p (eps ^ 2) : ℚ) : QInf))) with h | h
      · rw [candidate_separation] at hd
        rw [hd] at h
        cases h
      · rw [candidate_separation] at hd
        rw [hd] at h
        exact h
    constructor
    · rcases List.mem_map.mp hmem with ⟨q, hq, hgq⟩
      rcases List.mem_filter.mp hq with ⟨hq1, hqP⟩
      exact ⟨q, hq1, of_decide_eq_true hqP, WithTop.coe_inj.mp hgq⟩
    · intro q hq hlt
      have hqm : ((zDisplacement sqrt q p (eps ^ 2) : ℚ) : QInf) ∈
          (pc1.filter (fun q => decide (xySepSqr q p < eps ^ 2))).map
          (fun q => ((zDisplacement sqrt q p (eps ^ 2) : ℚ) : QInf)) :=
        List.mem_map.mpr ⟨q, List.mem_filter.mpr ⟨hq, decide_eq_true hlt⟩, rfl⟩
      have := minQInf_le_of_mem hqm
      rw [candidate_separation] at hd
      rw [hd] at this
      exact this

/-- Witness for C3 on a one point aggregate candidate list and a one
point incoming list, the index query returning the full candidate
list. -/
theorem find_min_distance_spec_witness :
    find_min_distance (fun _ _ => [((0 : ℚ), (0 : ℚ), (1 : ℚ))]) ratSqrt
        [((0 : ℚ), (0 : ℚ), (0 : ℚ))] 1 =
      minQInf (([((0 : ℚ), (0 : ℚ), (0 : ℚ))]).map
        (fun p => candidate_separation ratSqrt [((0 : ℚ), (0 : ℚ), (1 : ℚ))] p 1)) ∧
    (∀ p : Pt, ([((0 : ℚ), (0 : ℚ), (1 : ℚ))]).filter
        (fun q => decide (xySepSqr q p < (1 : ℚ) ^ 2)) = [] →
      candidate_separation ratSqrt [((0 : ℚ), (0 : ℚ), (1 : ℚ))] p 1 = ⊤) ∧
    (∀ p : Pt, ∀ d : ℚ,
      candidate_separation ratSqrt [((0 : ℚ), (0 : ℚ), (1 : ℚ))] p 1 = (d : QInf) →
      (∃ q ∈ [((0 : ℚ), (0 : ℚ), (1 : ℚ))], xySepSqr q p < (1 : ℚ) ^ 2 ∧
        zDisplacement ratSqrt q p ((1 : ℚ) ^ 2) = d) ∧
      ∀ q ∈ [((0 : ℚ), (0 : ℚ), (1 : ℚ))], xySepSqr q p < (1 : ℚ) ^ 2 →
        (d : QInf) ≤ ((zDisplacement ratSqrt q p ((1 : ℚ) ^ 2) : ℚ) : QInf)) :=
  find_min_distance_spec (fun _ _ => [((0 : ℚ), (0 : ℚ), (1 : ℚ))]) ratSqrt
    [((0 : ℚ), (0 : ℚ), (1 : ℚ))] [((0 : ℚ), (0 : ℚ), (0 : ℚ))] 1
    (by intro p _ q hq; exact hq) (by intro p _ q hq _; exact hq)

/-- The rational square root helper is exact on squares of nonnegative
rationals. -/
theorem ratSqrt_sq (q : ℚ) (h : 0 ≤ q) : ratSqrt (q * q) = q := by
  have hn : 0 ≤ q.num := Rat.num_nonneg.mpr h
  unfold ratSqrt
  rw [Rat.mul_self_num q, Rat.mul_self_den q]
  have h1 : (q.num * q.num).toNat = q.num.toNat * q.num.toNat := by
    rcases Int.eq_ofNat_of_zero_le hn with ⟨n, hn2⟩
    rw [hn2]
    rfl
  rw [h1, Nat.sqrt_eq, Nat.sqrt_eq]
  have h2 : ((q.num.toNat : ℕ) : ℚ) = ((q.num : ℤ) : ℚ) := by
    exact_mod_cast congrArg (fun z : ℤ => (z : ℚ)) (Int.toNat_of_nonneg hn)
  rw [h2, Rat.num_div_den]

/-- Exact square root values taken during the compact_rime run below. -/
theorem ratSqrt_121 : ratSqrt 121 = 11 := by
  rw [show (121 : ℚ) = 11 * 11 by norm_num]
  exact ratSqrt_sq 11 (by norm_num)

/-- Exact square root of 961. -/
theorem ratSqrt_961 : ratSqrt 961 = 31 := by
  rw [show (961 : ℚ) = 31 * 31 by norm_num]
  exact ratSqrt_sq 31 (by norm_num)

/-- Exact square root of 441. -/
theorem ratSqrt_441 : ratSqrt 441 = 21 := by
  rw [show (441 : ℚ) = 21 * 21 by norm_num]
  exact ratSqrt_sq 21 (by norm_num)

/-- Exact square root of the squared force norm of the first
relaxation step below. -/
theorem ratSqrt_force : ratSqrt (705600000000/13521270961) = 840000/116281 := by
  rw [show (705600000000/13521270961 : ℚ) = (840000/116281) * (840000/116281) by
    norm_num]
  exact ratSqrt_sq (840000/116281) (by norm_num)

/-- First iteration of the compact_rime run of the C5 failing input:
starting at the origin between neighbors at x = 11 and x = -31 with
grid_res = 100, the summed repulsions push the point a full clamped step
of length dr * grid_res = 10 to x = -10, neither break fires, and the
loop recurses there. -/
theorem compact_force_value1 :
    compact_force ratSqrt 100 (1/10) [(11, 0, 0), (-31, 0, 0)] (0, 0, 0) =
      (-10, 0, 0) := by
  simp only [compact_force, ptSub, ptAdd, ptScale, normSqr,
    List.map_cons, List.map_nil, List.insertionSort, List.orderedInsert,
    List.foldl_cons, List.foldl_nil]
  norm_num [ratSqrt_121, ratSqrt_961, ratSqrt_force]

/-- At x = -10 the two repulsions cancel, so the force step is zero. -/
theorem compact_force_value2 :
    compact_force ratSqrt 100 (1/10) [(11, 0, 0), (-31, 0, 0)] (-10, 0, 0) =
      (0, 0, 0) := by
  simp only [compact_force, ptSub, ptAdd, ptScale, normSqr,
    List.map_cons, List.map_nil, List.insertionSort, List.orderedInsert,
    List.foldl_cons, List.foldl_nil]
  norm_num [ratSqrt_441]

theorem compact_rime_loop_stepA (it : Nat) :
    compact_rime_loop ratSqrt 100 [(11, 0, 0), (-31, 0, 0)] (0, 0, 0)
      (1/100) (1/100) (1/10) (it + 1) (0, 0, 0) =
    compact_rime_loop ratSqrt 100 [(11, 0, 0), (-31, 0, 0)] (0, 0, 0)
      (1/100) (1/100) (1/10) it (-10, 0, 0) := by
  simp only [compact_rime_loop, compact_force_value1]
  norm_num [ptSub, ptAdd, normSqr]

/-- Second iteration of the same run: at x = -10 the two repulsions
cancel, the step is zero, and the min_move test stops the loop with the
point at squared distance 100 from the start, far beyond the
(max_dist * grid_res)^2 = 1 budget, because the budget guard divides the
squared displacement by grid_res^2 before comparing. -/
theorem compact_rime_loop_stepB (it : Nat) :
    compact_rime_loop ratSqrt 100 [(11, 0, 0), (-31, 0, 0)] (0, 0, 0)
      (1/100) (1/100) (1/10) (it + 1) (-10, 0, 0) = (-10, 0, 0) := by
  simp only [compact_rime_loop, compact_force_value2]
  norm_num [ptSub, ptAdd, normSqr]

/-- The full run: two iterations and stop, whatever fuel remains. -/
theorem compact_rime_loop_step2 (it : Nat) :
    compact_rime_loop ratSqrt 100 [(11, 0, 0), (-31, 0, 0)] (0, 0, 0)
      (1/100) (1/100) (1/10) (it + 1 + 1) (0, 0, 0) = (-10, 0, 0) := by
  rw [compact_rime_loop_stepA (it + 1), compact_rime_loop_stepB it]

/-- Mask selection distributes over cons. -/
theorem maskSelect_cons {α : Type} (x : α) (xs : List α) (m : Bool)
    (ms : List Bool) :
    maskSelect (x :: xs) (m :: ms) =
      if m then x :: maskSelect xs ms else maskSelect xs ms := by
  by_cases hm : m = true
  · simp [maskSelect, hm]
  · simp [maskSelect, hm]

/-- Mask selection keeps parallel lists parallel. -/
theorem maskSelect_length_eq {α β : Type} (a : List α) (b : List β)
    (mask : List Bool) (h : a.length = b.length) :
    (maskSelect a mask).length = (maskSelect b mask).length := by
  induction a generalizing b mask with
  | nil =>
    have hb : b = [] := List.length_eq_zero.mp h.symm
    rw [hb]
    simp [maskSelect]
  | cons x xs ih =>
    cases b with
    | nil => simp at h
    | cons y ys =>
      cases mask with
      | nil => rfl
      | cons m ms =>
        have h2 : xs.length = ys.length := by
          simpa using h
        rw [maskSelect_cons, maskSelect_cons]
        by_cases hm : m = true <;> simp [hm, ih ys ms h2]

/-- Selecting two parallel lists by the same mask and pairing them is
selecting the paired list: an identifier is kept exactly when its row
is kept. -/
theorem maskSelect_zip {α β : Type} (a : List α) (b : List β)
    (mask : List Bool) (h : a.length = b.length) :
    (maskSelect a mask).zip (maskSelect b mask) =
      maskSelect (a.zip b) mask := by
  induction a generalizing b mask with
  | nil =>
    have hb : b = [] := List.length_eq_zero.mp h.symm
    rw [hb]
    rfl
  | cons x xs ih =>
    cases b with
    | nil => simp at h
    | cons y ys =>
      cases mask with
      | nil => rfl
      | cons m ms =>
        have h2 : xs.length = ys.length := by
          simpa using h
        rw [List.zip_cons_cons, maskSelect_cons, maskSelect_cons, maskSelect_cons]
        by_cases hm : m = true
        · simp only [hm, if_pos]
          rw [List.zip_cons_cons, ih ys ms h2]
        · simp only [hm]
          simp only [if_neg, Bool.false_eq_true, ite_false]
          exact ih ys ms h2

/-- Recentering does not change the number of rows. -/
theorem update_coordinates_length (X : List Pt) :
    (update_coordinates X).1.length = X.length := by
  simp [update_coordinates]

/-- The broadcast length of np.full whenever it returns. -/
theorem npFull_length (n : Nat) (f : IdentFill) (l : List Int)
    (h : npFull n f = Except.ok l) : l.length = n := by
  rcases f with v | a
  · simp [npFull] at h
    rw [← h]
    simp
  · have hr : npFull n (IdentFill.arr a) =
        if a.length = n then Except.ok a
        else if a.length = 1 then Except.ok (List.replicate n (a.headD 0))
        else Except.error "ValueError: could not broadcast fill value" := rfl
    rw [hr] at h
    by_cases ha : a.length = n
    · rw [if_pos ha] at h
      simp at h
      rw [← h]
      exact ha
    · rw [if_neg ha] at h
      by_cases hb : a.length = 1
      · rw [if_pos hb] at h
        simp at h
        rw [← h]
        simp
      · rw [if_neg hb] at h
        cases h

/-- add_elements preserves the identifier invariant whenever it
returns without raising. -/
theorem add_elements_wf (st : AggState) (h : identWf st) (added : List Pt)
    (f : IdentFill) (u : Bool) (st2 : AggState)
    (h2 : add_elements st added f u = (st2, none)) : identWf st2 := by
  have h' : st.ident.length = st.X.length := h
  unfold add_elements at h2
  rcases hnp : npFull added.length f with e | idents
  · rw [hnp] at h2
    simp at h2
  · have hlen : idents.length = added.length :=
      npFull_length added.length f idents hnp
    rw [hnp] at h2
    rcases u with _ | _ <;>
    · simp at h2
      rw [← h2]
      simp [identWf, update_coordinates, List.length_append, h', hlen]

/-- remove_elements always preserves the invariant (on the empty cloud
argmin ValueError path the state is untouched) and drops an identifier
exactly when it drops the corresponding row. -/
theorem remove_elements_wf (st : AggState) (h : identWf st)
    (removed : List Pt) (grid_res tolerance : ℚ) (u : Bool) :
    identWf (remove_elements st removed grid_res tolerance u).1 ∧
    (remove_elements st removed grid_res tolerance u).1.ident =
      maskSelect st.ident (remove_keep st.X removed grid_res tolerance) ∧
    (maskSelect st.X (remove_keep st.X removed grid_res tolerance)).zip
      (maskSelect st.ident (remove_keep st.X removed grid_res tolerance)) =
      maskSelect (st.X.zip st.ident)
        (remove_keep st.X removed grid_res tolerance) := by
  by_cases he : st.X = [] ∧ removed ≠ []
  · have hid : st.ident = [] := by
      have h2 : st.ident.length = st.X.length := h
      rw [he.1] at h2
      exact List.length_eq_zero.mp h2
    unfold remove_elements
    rw [if_pos he]
    refine ⟨h, ?_, ?_⟩
    · show st.ident = maskSelect st.ident
        (remove_keep st.X removed grid_res tolerance)
      rw [hid, he.1]
      rfl
    · rw [hid, he.1]
      rfl
  · refine ⟨?_, ?_, maskSelect_zip st.X st.ident _ h.symm⟩
    · have hlen := maskSelect_length_eq st.ident st.X
        (remove_keep st.X removed grid_res tolerance) h
      unfold remove_elements
      rw [if_neg he]
      rcases u with _ | _ <;>
        simp [identWf, update_coordinates_length, hlen]
    · unfold remove_elements
      rw [if_neg he]
      rcases u with _ | _ <;> simp

/-- C9 (amended to the non-raising add paths): construction,
remove_elements, and every add_elements call that returns without
raising keep exactly one identifier per row of X, as do the commits of
a successful add_particle and of add_rime_particles whenever np.full
accepts the ident fill; and remove_elements drops an element's
identifier exactly when it drops that element's row (the kept pairs are
the zip rows selected by the keep mask).  An add_elements call whose
np.full raises is the documented exception: it extends X first and
leaves ident stale (see the counterexample). -/
theorem ident_invariant_preserved (st : AggState) (h : identWf st)
    (generated : List Pt) (ident0 : Int) (added : List Pt) (f : IdentFill)
    (u : Bool) (removed : List Pt) (grid_res tolerance : ℚ)
    (p_shift : List Pt) (identOpt : Option (List Int))
    (rime_added : List Pt) :
    identWf (aggregate_init generated ident0) ∧
    (∀ st2, add_elements st added f u = (st2, none) → identWf st2) ∧
    (identWf (remove_elements st removed grid_res tolerance u).1 ∧
      (remove_elements st removed grid_res tolerance u).1.ident =
        maskSelect st.ident (remove_keep st.X removed grid_res tolerance) ∧
      (maskSelect st.X (remove_keep st.X removed grid_res tolerance)).zip
        (maskSelect st.ident (remove_keep st.X removed grid_res tolerance)) =
        maskSelect (st.X.zip st.ident)
          (remove_keep st.X removed grid_res tolerance)) ∧
    (∀ st2, add_particle_commit st p_shift identOpt = (st2, none) →
      identWf st2) ∧
    (∀ st2, add_rime_commit st rime_added = (st2, none) → identWf st2) := by
  refine ⟨?_, ?_, remove_elements_wf st h removed grid_res tolerance u, ?_, ?_⟩
  · simp [identWf, aggregate_init]
  · intro st2 h2
    exact add_elements_wf st h added f u st2 h2
  · intro st2 h2
    exact add_elements_wf st h p_shift _ true st2 h2
  · intro st2 h2
    exact add_elements_wf st h rime_added _ true st2 h2

/-- Witness for C9 on a concrete one element aggregate and concrete
arguments for each mutator. -/
theorem ident_invariant_preserved_witness :
    identWf (aggregate_init [((0 : ℚ), 0, 0)] 5) ∧
    (∀ st2, add_elements wstate [((4 : ℚ), 4, 4)] (IdentFill.scalar 2) true =
        (st2, none) → identWf st2) ∧
    (identWf (remove_elements wstate [] 1 0 true).1 ∧
      (remove_elements wstate [] 1 0 true).1.ident =
        maskSelect wstate.ident (remove_keep wstate.X [] 1 0) ∧
      (maskSelect wstate.X (remove_keep wstate.X [] 1 0)).zip
        (maskSelect wstate.ident (remove_keep wstate.X [] 1 0)) =
        maskSelect (wstate.X.zip wstate.ident)
          (remove_keep wstate.X [] 1 0)) ∧
    (∀ st2, add_particle_commit wstate [((1 : ℚ), 1, 1)] none =
        (st2, none) → identWf st2) ∧
    (∀ st2, add_rime_commit wstate [((2 : ℚ), 2, 2)] = (st2, none) →
      identWf st2) :=
  ident_invariant_preserved wstate rfl
    [((0 : ℚ), 0, 0)] 5 [((4 : ℚ), 4, 4)] (IdentFill.scalar 2) true [] 1 0
    [((1 : ℚ), 1, 1)] none [((2 : ℚ), 2, 2)]

/-- C9 counterexample: add_elements on a well formed one element
aggregate with the non-broadcastable ident array [1, 2] raises the
np.full ValueError only after line 620 has already extended self.X, so
the state a catching caller observes has two rows against one
identifier: len(ident) == len(X) is broken by this mutator call. -/
theorem add_elements_ident_counterexample :
    identWf wstate ∧
    (add_elements wstate [((4 : ℚ), 4, 4)] (IdentFill.arr [1, 2]) true).2 =
      some "ValueError: could not broadcast fill value" ∧
    ¬ identWf (add_elements wstate [((4 : ℚ), 4, 4)] (IdentFill.arr [1, 2])
      true).1 := by
  refine ⟨rfl, rfl, ?_⟩
  intro hw
  have h2 : (1 : Nat) = 2 := hw
  omega

/-- The index 0 candidate always yields a height: every branch of the
unrolled height loop at i = 0 accepts one of the two contacts. -/
theorem rime_try_candidate_zero_isSome (sqrt : ℚ → ℚ) (oX : List Pt)
    (oz : List ℚ) (xs ys grid_res : ℚ) :
    (rime_try_candidate sqrt oX oz xs ys grid_res 0).isSome = true := by
  unfold rime_try_candidate
  by_cases h1 : (0 : Nat) = 0 ∧ (rime_z_contact sqrt oX xs ys grid_res 0).1 =
      (rime_z_contact sqrt oX xs ys grid_res 0).2
  · simp [h1]
  · by_cases h2 : rime_overlap_at oX oz 0 xs ys
        (rime_z_contact sqrt oX xs ys grid_res 0).1 grid_res = true
    · by_cases h3 : (rime_z_contact sqrt oX xs ys grid_res 0).1 =
          (rime_z_contact sqrt oX xs ys grid_res 0).2
      · simp [h1, h2, h3]
      · simp [h1, h2, h3]
    · simp [h1, h2]

/-- The downward scan always yields a height, by induction down to the
index 0 candidate. -/
theorem rime_scan_isSome (sqrt : ℚ → ℚ) (oX : List Pt) (oz : List ℚ)
    (xs ys grid_res : ℚ) (i : Nat) :
    (rime_scan sqrt oX oz xs ys grid_res i).isSome = true := by
  induction i with
  | zero => exact rime_try_candidate_zero_isSome sqrt oX oz xs ys grid_res
  | succ n ih =>
    simp only [rime_scan]
    cases h : rime_try_candidate sqrt oX oz xs ys grid_res (n + 1) with
    | some zc => simp
    | none => simpa using ih

/-- C6: a draw whose accepted candidate window is nonempty
(last_ind at least 1) always yields a site, because the scan reaching
the bottom-most candidate accepts it unconditionally; the second
conjunct isolates that acceptance: at i = 0, when the upper contact
failed its third sphere overlap test (and the contacts differ), the
lower contact is returned with the overlap test skipped. -/
theorem rime_site_search_finds (sqrt : ℚ → ℚ) (overlapping_X : List Pt)
    (xs ys pen_depth grid_res : ℚ)
    (h : 0 < rime_last_ind overlapping_X pen_depth) :
    (rime_site_search sqrt overlapping_X xs ys pen_depth grid_res).isSome
      = true ∧
    ∀ (oX : List Pt) (oz : List ℚ),
      rime_overlap_at oX oz 0 xs ys (rime_z_contact sqrt oX xs ys grid_res 0).1
        grid_res = true →
      (rime_z_contact sqrt oX xs ys grid_res 0).1 ≠
        (rime_z_contact sqrt oX xs ys grid_res 0).2 →
      rime_try_candidate sqrt oX oz xs ys grid_res 0 =
        some (rime_z_contact sqrt oX xs ys grid_res 0).2 := by
  constructor
  · unfold rime_site_search
    unfold rime_last_ind at h
    cases hs : overlapping_X.insertionSort (fun a b => a.2.2 ≤ b.2.2) with
    | nil =>
      rw [hs] at h
      simp [bisect_left] at h
    | cons c0 rest =>
      rw [hs] at h
      simp only [List.headD_cons] at h
      simp only [hs]
      have hne : ¬ (bisect_left ((c0 :: rest).map (fun p => p.2.2))
          (c0.2.2 + pen_depth) = 0) := by omega
      rw [if_neg hne]
      rcases Option.isSome_iff_exists.mp (rime_scan_isSome sqrt
        ((c0 :: rest).take (bisect_left ((c0 :: rest).map (fun p => p.2.2))
          (c0.2.2 + pen_depth + grid_res) + 1))
        (((c0 :: rest).take (bisect_left ((c0 :: rest).map (fun p => p.2.2))
          (c0.2.2 + pen_depth + grid_res) + 1)).map (fun p => p.2.2))
        xs ys grid_res
        (bisect_left ((c0 :: rest).map (fun p => p.2.2))
          (c0.2.2 + pen_depth) - 1)) with ⟨zc, hzc⟩
      rw [hzc]
      rfl
  · intro oX oz hovl hne
    unfold rime_try_candidate
    rw [if_neg (by simp [hne]), if_neg (by simp [hovl]), if_pos rfl]

/-- Witness for C6 on a single element cloud directly below the draw
point, with pen_depth = grid_res = 1. -/
theorem rime_site_search_finds_witness :
    0 < rime_last_ind [((0 : ℚ), (0 : ℚ), (0 : ℚ))] 1 ∧
    ((rime_site_search ratSqrt [((0 : ℚ), (0 : ℚ), (0 : ℚ))] 0 0 1 1).isSome
      = true ∧
    ∀ (oX : List Pt) (oz : List ℚ),
      rime_overlap_at oX oz 0 0 0 (rime_z_contact ratSqrt oX 0 0 1 0).1 1
        = true →
      (rime_z_contact ratSqrt oX 0 0 1 0).1 ≠
        (rime_z_contact ratSqrt oX 0 0 1 0).2 →
      rime_try_candidate ratSqrt oX oz 0 0 1 0 =
        some (rime_z_contact ratSqrt oX 0 0 1 0).2) :=
  have hlt : 0 < rime_last_ind [((0 : ℚ), (0 : ℚ), (0 : ℚ))] 1 := by
    norm_num [rime_last_ind, bisect_left, List.insertionSort,
      List.orderedInsert, List.takeWhile]
  ⟨hlt, rime_site_search_finds ratSqrt [((0 : ℚ), (0 : ℚ), (0 : ℚ))] 0 0 1 1 hlt⟩

/-- C5: code bug demonstration.  With grid_res = 100 and
max_dist = 1/100 the displacement budget max_dist * grid_res is 1, yet
compact_rime returns a point at squared distance 100 from the input
point: the budget guard divides the squared displacement by grid_res
squared while comparing against (max_dist * grid_res) squared, so the
clamp never fires and the claimed budget bound is violated. -/
theorem compact_rime_exceeds_budget :
    compact_rime ratSqrt 100 (0, 0, 0) [(11, 0, 0), (-31, 0, 0)]
      (1/100) (1/100) (1/10) 100 = (-10, 0, 0) ∧
    ((1 : ℚ)/100 * 100) ^ 2 < normSqr (ptSub (-10, 0, 0) (0, 0, 0)) := by
  constructor
  · unfold compact_rime
    rw [if_neg (by norm_num)]
    rw [show (100 : Nat) = 98 + 1 + 1 by norm_num]
    exact compact_rime_loop_step2 98
  · norm_num [normSqr, ptSub]

/-- C2 counterexample: with distances (0, 5, 10) from the centroid,
pen_depth = 3 and mass fraction 34, the point at distance 10 is the
maximum radius shell point itself, hence within pen_depth of the shell,
so the claimed wording includes it; the source mask excludes it. -/
theorem pen_depth_mask_counterexample :
    (pen_depth_intersection_mask [0, 5, 10] 3 34).getD 2 true = false ∧
    (claimed_mask_C2 [0, 5, 10] 3 34).getD 2 false = true := by
  constructor <;>
    norm_num [pen_depth_intersection_mask, claimed_mask_C2, distance_limit,
      npMax, List.insertionSort, List.orderedInsert]

/-- C2 amended: for a mass fraction below 100, a point is excluded from
intersection candidacy iff it is both outside the inner mass fraction
percentile and strictly nearer than pen_depth to the maximum radius
shell; equivalently the mask includes exactly the points inside the
percentile or at depth at least pen_depth below the maximum radius. -/
theorem pen_depth_mask_spec (d : List ℚ) (pd mf : ℚ) (hmf : mf < 100) :
    pen_depth_intersection_mask d pd mf =
      d.map (fun x =>
        !(decide (distance_limit d mf < x) && decide (npMax d - x < pd))) := by
  have hmf2 : ¬ (100 ≤ mf) := not_le.mpr hmf
  simp only [pen_depth_intersection_mask, if_neg hmf2]
  apply List.map_congr_left
  intro x _
  by_cases h1 : x ≤ distance_limit d mf
  · simp [h1, not_lt.mpr h1]
  · by_cases h2 : x ≤ npMax d - pd
    · have h3 : ¬ (npMax d - x < pd) := not_lt.mpr (le_sub_comm.mp h2)
      simp [h1, h2, h3, not_le.mp h1]
    · have h3 : npMax d - x < pd := by
        have := not_le.mp h2
        exact sub_lt_comm.mp this
      simp [h1, h2, h3, not_le.mp h1]

/-- Witness for C2 amended at the concrete distances (0, 5, 10). -/
theorem pen_depth_mask_spec_witness :
    pen_depth_intersection_mask [0, 5, 10] 3 34 =
      ([0, 5, 10] : List ℚ).map (fun x =>
        !(decide (distance_limit [0, 5, 10] 34 < x) &&
          decide (npMax [0, 5, 10] - x < 3))) :=
  pen_depth_mask_spec [0, 5, 10] 3 34 (by norm_num)

/-- C7 counterexample: on the one point cloud (1,2,3) with a consistent
extent, add_rime_particles with N = 0 recenters the cloud to the origin,
changing both the point coordinates and the extent. -/
theorem add_rime_particles_N0_counterexample :
    (add_rime_particles_N0 [(1, 2, 3)] [0]).1.1 ≠ [(1, 2, 3)] ∧
    (add_rime_particles_N0 [(1, 2, 3)] [0]).2 ≠ update_extent [(1, 2, 3)] := by
  constructor <;>
    norm_num [add_rime_particles_N0, update_coordinates, cloudMean, ptSub,
      update_extent, Prod.ext_iff]

/-- C7 amended: depositing N = 0 rime particles leaves the point cloud,
the identifiers and the extent unchanged exactly when the cloud is
already centered on its centroid (which the Aggregate mutators maintain);
in general the run recenters the cloud. -/
theorem add_rime_particles_N0_spec (X : List Pt) (ident : List Int)
    (hc : cloudMean X = (0, 0, 0)) :
    add_rime_particles_N0 X ident = ((X, ident), update_extent X) := by
  have hmap : X.map (fun p => ptSub p (cloudMean X)) = X := by
    have h1 : ∀ p ∈ X, ptSub p (cloudMean X) = id p := by
      intro p _
      rw [hc]
      simp [ptSub]
    rw [List.map_congr_left h1, List.map_id]
  simp [add_rime_particles_N0, update_coordinates, hmap]

/-- Witness for C7 amended on a centered two point cloud. -/
theorem add_rime_particles_N0_spec_witness :
    add_rime_particles_N0 [(1, 0, 0), (-1, 0, 0)] [0, 0] =
      (([(1, 0, 0), (-1, 0, 0)], [0, 0]),
        update_extent [(1, 0, 0), (-1, 0, 0)]) :=
  add_rime_particles_N0_spec [(1, 0, 0), (-1, 0, 0)] [0, 0]
    (by norm_num [cloudMean, Prod.ext_iff])

/-- Row times matrix composes to row times product. -/
theorem vecMulMat_matMul (v : Pt) (A B : Mat3) :
    vecMulMat (vecMulMat v A) B = vecMulMat v (matMul A B) := by
  simp only [vecMulMat, matMul]
  refine Prod.ext ?_ (Prod.ext ?_ ?_) <;> dsimp <;> ring

/-- The identity matrix is neutral for row times matrix. -/
theorem vecMulMat_id (v : Pt) : vecMulMat v idMat3 = v := by
  simp only [vecMulMat, idMat3]
  refine Prod.ext ?_ (Prod.ext ?_ ?_) <;> dsimp <;> ring

/-- C10: when direction is not None, project_on_dim rotates the cloud,
projects, and under exact real arithmetic the finally block restores the
cloud exactly whenever the rotation matrix is orthogonal; the recomputed
extent then equals the extent of the original cloud, and this holds
whether the projection body returned a grid or raised. -/
theorem project_on_dim_direction_restores (X : List Pt) (g : ℚ) (R : Mat3)
    (h : matMul R (matT R) = idMat3) :
    (project_on_dim_direction X g R).2.1 = X ∧
    (project_on_dim_direction X g R).2.2 = update_extent X := by
  have hv : ∀ v : Pt, vecMulMat (vecMulMat v R) (matT R) = v := by
    intro v
    rw [vecMulMat_matMul, h, vecMulMat_id]
  have hX : (X.map (fun v => vecMulMat v R)).map
      (fun v => vecMulMat v (matT R)) = X := by
    rw [List.map_map]
    have h2 : ((fun v => vecMulMat v (matT R)) ∘ fun v => vecMulMat v R) =
        fun v : Pt => v := by
      funext v
      exact hv v
    rw [h2]
    exact List.map_id X
  exact ⟨by simp [project_on_dim_direction, hX],
    by simp [project_on_dim_direction, hX]⟩

/-- The three coordinate unfolding of the recursive comparator. -/
theorem rowCmp_eq (a b : Row) : rowCmp a b =
    if b.1 < a.1 then 1 else if a.1 < b.1 then -1
    else if b.2.1 < a.2.1 then 1 else if a.2.1 < b.2.1 then -1
    else if b.2.2 < a.2.2 then 1 else if a.2.2 < b.2.2 then -1 else 0 := by
  rcases a with ⟨a1, a2, a3⟩
  rcases b with ⟨b1, b2, b3⟩
  simp only [rowCmp, rowToList, compare_row, List.headD, List.tail_cons,
    List.length_cons, List.length_nil, gt_iff_lt]
  norm_num

/-- The comparator takes only the three values 1, -1 and 0. -/
theorem rowCmp_trichotomy (a b : Row) :
    rowCmp a b = 1 ∨ rowCmp a b = -1 ∨ rowCmp a b = 0 := by
  rw [rowCmp_eq]
  split_ifs <;> simp

/-- Explicit lexicographic reading of the strict row order. -/
theorem rowLt_iff (a b : Row) : rowLt a b ↔
    (a.1 < b.1 ∨ (a.1 = b.1 ∧ (a.2.1 < b.2.1 ∨
      (a.2.1 = b.2.1 ∧ a.2.2 < b.2.2)))) := by
  unfold rowLt
  rw [rowCmp_eq]
  split_ifs <;> (try simp only [false_iff, true_iff, iff_false, iff_true]) <;> omega

/-- The comparator answers 0 exactly on equal rows. -/
theorem rowCmp_zero_iff (a b : Row) : rowCmp a b = 0 ↔ a = b := by
  rcases a with ⟨a1, a2, a3⟩
  rcases b with ⟨b1, b2, b3⟩
  rw [rowCmp_eq]
  dsimp only
  simp only [Prod.mk.injEq]
  split_ifs <;> (try simp only [false_iff, true_iff, iff_false, iff_true]) <;> omega

/-- The comparator answers 1 exactly when the right row is smaller. -/
theorem rowCmp_pos_iff (a b : Row) : rowCmp a b = 1 ↔ rowLt b a := by
  rw [rowCmp_eq, rowLt_iff]
  split_ifs <;> (try simp only [false_iff, true_iff, iff_false, iff_true]) <;> omega

/-- Transitivity of the strict row order. -/
theorem rowLt_trans {a b c : Row} (h1 : rowLt a b) (h2 : rowLt b c) :
    rowLt a c := by
  rw [rowLt_iff] at *
  omega

/-- Irreflexivity of the strict row order. -/
theorem rowLt_irrefl (a : Row) : ¬ rowLt a a := by
  rw [rowLt_iff]
  omega

/-- Strictly smaller rows are distinct. -/
theorem rowLt_ne {a b : Row} (h : rowLt a b) : a ≠ b := by
  intro he
  rw [he] at h
  exact rowLt_irrefl b h

/-- The nonstrict order is strictly smaller or equal. -/
theorem rowLe_iff (a b : Row) : rowLe a b ↔ (rowLt a b ∨ a = b) := by
  constructor
  · intro h
    rcases rowCmp_trichotomy a b with h1 | h1 | h1
    · exact absurd h1 h
    · exact Or.inl h1
    · exact Or.inr ((rowCmp_zero_iff a b).mp h1)
  · intro h
    rcases h with h | h
    · unfold rowLe
      rw [h]
      omega
    · unfold rowLe
      rw [h, (rowCmp_zero_iff b b).mpr rfl]
      omega

/-- Mixed transitivity: nonstrict then strict. -/
theorem rowLt_of_le_of_lt {a b c : Row} (h1 : rowLe a b) (h2 : rowLt b c) :
    rowLt a c := by
  rcases (rowLe_iff a b).mp h1 with h | h
  · exact rowLt_trans h h2
  · rw [h]
    exact h2

/-- Mixed transitivity: strict then nonstrict. -/
theorem rowLt_of_lt_of_le {a b c : Row} (h1 : rowLt a b) (h2 : rowLe b c) :
    rowLt a c := by
  rcases (rowLe_iff b c).mp h2 with h | h
  · exact rowLt_trans h1 h
  · rw [← h]
    exact h1

/-- Transitivity of the nonstrict row order. -/
theorem rowLe_trans {a b c : Row} (h1 : rowLe a b) (h2 : rowLe b c) :
    rowLe a c := by
  rcases (rowLe_iff a b).mp h1 with h | h
  · exact (rowLe_iff a c).mpr (Or.inl (rowLt_of_lt_of_le h h2))
  · rw [h]
    exact h2

/-- Totality of the nonstrict row order. -/
theorem rowLe_total (a b : Row) : rowLe a b ∨ rowLe b a := by
  by_cases h : rowCmp a b = 1
  · right
    unfold rowLe
    rw [(rowCmp_pos_iff a b).mp h]
    omega
  · exact Or.inl h

instance : IsTrans Row rowLe := ⟨fun _ _ _ => rowLe_trans⟩

instance : IsTotal Row rowLe := ⟨rowLe_total⟩

/-- The lexsort stage produces a rowLe sorted list. -/
theorem np_lexsort_sorted (l : List Row) :
    List.Pairwise rowLe (np_lexsort l) :=
  List.sorted_insertionSort rowLe l

/-- The lexsort stage permutes its input. -/
theorem np_lexsort_perm (l : List Row) : (np_lexsort l).Perm l :=
  List.perm_insertionSort rowLe l

/-- getD at an in-range index is get. -/
theorem getD_eq_get {x : List Row} {k : Nat} (hk : k < x.length) :
    x.getD k (0, 0, 0) = x.get ⟨k, hk⟩ := by
  rw [List.getD_eq_get?, List.get?_eq_get hk]
  rfl

/-- getD at an in-range index is a member. -/
theorem getD_mem {x : List Row} {k : Nat} (hk : k < x.length) :
    x.getD k (0, 0, 0) ∈ x := by
  rw [getD_eq_get hk]
  exact List.get_mem x k hk

/-- Strict sortedness read at indices through getD. -/
theorem pairwise_getD {x : List Row} (hs : List.Pairwise rowLt x) {j k : Nat}
    (hjk : j < k) (hk : k < x.length) :
    rowLt (x.getD j (0, 0, 0)) (x.getD k (0, 0, 0)) := by
  have hj : j < x.length := lt_trans hjk hk
  rw [getD_eq_get hj, getD_eq_get hk]
  exact (List.pairwise_iff_get.mp hs) ⟨j, hj⟩ ⟨k, hk⟩ hjk

/-- Membership read through getD. -/
theorem mem_iff_getD {rr : Row} {x : List Row} :
    rr ∈ x ↔ ∃ k, ∃ _ : k < x.length, x.getD k (0, 0, 0) = rr := by
  rw [List.mem_iff_get]
  constructor
  · rintro ⟨⟨k, hk⟩, hg⟩
    exact ⟨k, hk, by rw [getD_eq_get hk, hg]⟩
  · rintro ⟨k, hk, hg⟩
    exact ⟨⟨k, hk⟩, by rw [← getD_eq_get hk, hg]⟩

/-- The adjacent flag list has one flag per adjacent pair. -/
theorem adjacentOverlap_length (l : List Row) :
    (adjacentOverlap l).length = l.length - 1 := by
  induction l with
  | nil => rfl
  | cons a t ih =>
    cases t with
    | nil => rfl
    | cons b t2 =>
      simp only [adjacentOverlap, List.length_cons] at *
      omega

/-- The overlap mask has one flag per row on a nonempty array. -/
theorem overlapMask_length {l : List Row} (h : l ≠ []) :
    (overlapMask l).length = l.length := by
  have h1 := adjacentOverlap_length l
  have h2 : 1 ≤ l.length := List.length_pos.mpr h
  simp only [overlapMask, List.length_append, List.length_cons,
    List.length_nil]
  omega

/-- On a nonempty array, boolean indexing with the overlap mask
succeeds and is the mask selection. -/
theorem boolIndex_eq_selMask {l : List Row} (h : l ≠ []) (tgt : Bool) :
    boolIndex l (overlapMask l) tgt = some (selMask l tgt) := by
  unfold boolIndex selMask
  rw [if_pos (overlapMask_length h).symm]

/-- The overlap mask distributes over a two row head. -/
theorem overlapMask_cons2 (a b : Row) (t : List Row) :
    overlapMask (a :: b :: t) = decide (a = b) :: overlapMask (b :: t) := rfl

/-- Mask selection on a single row. -/
theorem selMask_single (a : Row) (tgt : Bool) :
    selMask [a] tgt = if (false == tgt) = true then [a] else [] := by
  by_cases h : (false == tgt) = true
  · rw [if_pos h]
    simp only [selMask, overlapMask, adjacentOverlap, List.nil_append,
      List.zip_cons_cons, List.zip_nil_right, List.filter_cons, h]
    rfl
  · rw [if_neg h]
    simp only [selMask, overlapMask, adjacentOverlap, List.nil_append,
      List.zip_cons_cons, List.zip_nil_right, List.filter_cons]
    rw [if_neg h]
    rfl

/-- Mask selection on at least two rows. -/
theorem selMask_cons2 (a b : Row) (t : List Row) (tgt : Bool) :
    selMask (a :: b :: t) tgt =
      (if (decide (a = b) == tgt) = true then [a] else []) ++
        selMask (b :: t) tgt := by
  unfold selMask
  rw [overlapMask_cons2, List.zip_cons_cons, List.filter_cons]
  by_cases h : (decide (a = b) == tgt) = true
  · rw [if_pos h, if_pos h]
    rfl
  · rw [if_neg h, if_neg h]
    rfl

/-- The duplicate rows and the kept rows partition the sorted array. -/
theorem selMask_length_split (l : List Row) :
    (selMask l false).length + (selMask l true).length = l.length := by
  induction l with
  | nil => rfl
  | cons a t ih =>
    cases t with
    | nil => rfl
    | cons b t2 =>
      rw [selMask_cons2, selMask_cons2, List.length_append,
        List.length_append]
      rcases hd : decide (a = b) with _ | _ <;>
      · norm_num
        simp only [List.length_cons] at *
        omega

/-- Mask selected rows come from the array. -/
theorem selMask_subset {l : List Row} {tgt : Bool} {x : Row}
    (hx : x ∈ selMask l tgt) : x ∈ l := by
  unfold selMask at hx
  rcases List.mem_map.mp hx with ⟨⟨x1, m⟩, hmem, he⟩
  rw [← he]
  exact (List.of_mem_zip (List.mem_of_mem_filter hmem)).1

/-- On a rowLe sorted array the kept rows (the last of each duplicate
run) are strictly sorted. -/
theorem selMask_false_sorted {l : List Row}
    (hs : List.Pairwise rowLe l) : List.Pairwise rowLt (selMask l false) := by
  induction l with
  | nil => exact List.Pairwise.nil
  | cons a t ih =>
    cases t with
    | nil =>
      rw [selMask_single]
      simp
    | cons b t2 =>
      rw [selMask_cons2]
      have hs2 : List.Pairwise rowLe (b :: t2) := hs.tail
      have ha : ∀ c ∈ b :: t2, rowLe a c := fun c hc =>
        List.rel_of_pairwise_cons hs hc
      by_cases h : a = b
      · rw [show decide (a = b) = true from by simp [h]]
        rw [if_neg (by norm_num), List.nil_append]
        exact ih hs2
      · rw [show decide (a = b) = false from by simp [h]]
        rw [if_pos (by norm_num)]
        refine List.Pairwise.cons ?_ (ih hs2)
        intro c hc
        have hcm : c ∈ b :: t2 := selMask_subset hc
        have hab : rowLt a b := by
          rcases (rowLe_iff a b).mp (ha b (List.mem_cons_self b t2)) with
            hlt | heq
          · exact hlt
          · exact absurd heq h
        rcases List.mem_cons.mp hcm with hcb | hct
        · rw [hcb]
          exact hab
        · exact rowLt_of_lt_of_le hab (List.rel_of_pairwise_cons hs2 hct)

/-- The kept rows of a nonempty array are nonempty. -/
theorem selMask_false_ne_nil {l : List Row} (h : l ≠ []) :
    selMask l false ≠ [] := by
  induction l with
  | nil => exact absurd rfl h
  | cons a t ih =>
    cases t with
    | nil =>
      rw [selMask_single]
      simp
    | cons b t2 =>
      rw [selMask_cons2]
      by_cases hab : a = b
      · rw [show decide (a = b) = true from by simp [hab]]
        rw [if_neg (by norm_num), List.nil_append]
        exact ih (by simp)
      · rw [show decide (a = b) = false from by simp [hab]]
        rw [if_pos (by norm_num)]
        simp

/-- Invariant proof of the binary search loop: on a strictly sorted
array, with the window known to contain every occurrence of the row,
the loop answers membership in the array. -/
theorem row_search_loop_spec (rr : Row) (x : List Row)
    (hs : List.Pairwise rowLt x) :
    ∀ n i0 i1, i1 - i0 ≤ n → i0 < i1 → i1 ≤ x.length →
    (∀ k, k < x.length → x.getD k (0, 0, 0) = rr → (i0 ≤ k ∧ k < i1)) →
    (row_search_loop (rowToList rr) x i0 i1 = true ↔ rr ∈ x) := by
  intro n
  induction n with
  | zero =>
    intro i0 i1 hle hlt
    omega
  | succ n ih =>
    intro i0 i1 hle hlt hub hwin
    rw [row_search_loop]
    by_cases hgap : 1 < i1 - i0
    · rw [if_pos hgap]
      have hcc : compare_row (rowToList rr)
          (rowToList (x.getD ((i0 + i1) / 2) (0, 0, 0))) =
          rowCmp rr (x.getD ((i0 + i1) / 2) (0, 0, 0)) := rfl
      rw [hcc]
      have hi1 : (i0 + i1) / 2 < i1 := by omega
      have hilen : (i0 + i1) / 2 < x.length := by omega
      rcases rowCmp_trichotomy rr (x.getD ((i0 + i1) / 2) (0, 0, 0)) with
        hc | hc | hc
      · rw [if_neg (by rw [hc]; omega), if_pos hc]
        apply ih ((i0 + i1) / 2) i1 (by omega) (by omega) hub
        intro k hk hkr
        obtain ⟨hk0, hk1⟩ := hwin k hk hkr
        refine ⟨?_, hk1⟩
        by_contra hki
        have hki2 : k < (i0 + i1) / 2 ∨ k = (i0 + i1) / 2 := by omega
        rcases hki2 with hki2 | hki2
        · have hlt2 := pairwise_getD hs hki2 hilen
          rw [hkr] at hlt2
          unfold rowLt at hlt2
          omega
        · rw [hki2] at hkr
          have := (rowCmp_zero_iff rr (x.getD ((i0 + i1) / 2) (0, 0, 0))).mpr
            hkr.symm
          omega
      · rw [if_neg (by rw [hc]; omega), if_neg (by rw [hc]; omega)]
        apply ih i0 ((i0 + i1) / 2) (by omega) (by omega) (by omega)
        intro k hk hkr
        obtain ⟨hk0, hk1⟩ := hwin k hk hkr
        refine ⟨hk0, ?_⟩
        by_contra hki
        have hki2 : (i0 + i1) / 2 < k ∨ k = (i0 + i1) / 2 := by omega
        rcases hki2 with hki2 | hki2
        · have hlt2 := pairwise_getD hs hki2 hk
          rw [hkr] at hlt2
          have := (rowCmp_pos_iff rr
            (x.getD ((i0 + i1) / 2) (0, 0, 0))).mpr hlt2
          omega
        · rw [hki2] at hkr
          have := (rowCmp_zero_iff rr (x.getD ((i0 + i1) / 2) (0, 0, 0))).mpr
            hkr.symm
          omega
      · rw [if_pos hc]
        have hrr : rr = x.getD ((i0 + i1) / 2) (0, 0, 0) :=
          (rowCmp_zero_iff _ _).mp hc
        constructor
        · intro _
          rw [hrr]
          exact getD_mem hilen
        · intro _
          rfl
    · rw [if_neg hgap]
      have hcc : compare_row (rowToList rr) (rowToList (x.getD i0 (0, 0, 0))) =
          rowCmp rr (x.getD i0 (0, 0, 0)) := rfl
      rw [hcc, beq_iff_eq]
      constructor
      · intro hc0
        have hr : rr = x.getD i0 (0, 0, 0) := (rowCmp_zero_iff _ _).mp hc0
        rw [hr]
        exact getD_mem (by omega)
      · intro hmem
        rcases mem_iff_getD.mp hmem with ⟨k, hk, hkr⟩
        obtain ⟨h1, h2⟩ := hwin k hk hkr
        have hki : i0 = k := by omega
        rw [hki]
        exact (rowCmp_zero_iff _ _).mpr hkr.symm

/-- row_is_in_sorted_array decides membership on a strictly sorted
nonempty array. -/
theorem row_is_in_sorted_array_iff {rr : Row} {x : List Row}
    (hs : List.Pairwise rowLt x) (hx : x ≠ []) :
    (row_is_in_sorted_array rr x = true) ↔ rr ∈ x := by
  unfold row_is_in_sorted_array
  exact row_search_loop_spec rr x hs x.length 0 x.length (by omega)
    (List.length_pos.mpr hx) (le_refl _) (fun k hk _ => ⟨Nat.zero_le k, hk⟩)

/-- Invariant proof of the insertion bisection loop: the final pair is
adjacent, in range, and brackets the missing row. -/
theorem insert_row_loop_spec (rr : Row) (x : List Row) (hmem : rr ∉ x) :
    ∀ n i0 i1, i1 - i0 ≤ n → i0 < i1 → i1 ≤ x.length →
    (i0 = 0 ∨ rowLt (x.getD i0 (0, 0, 0)) rr) →
    (i1 = x.length ∨ rowLt rr (x.getD i1 (0, 0, 0))) →
    ((insert_row_loop (rowToList rr) x i0 i1).1 + 1 =
        (insert_row_loop (rowToList rr) x i0 i1).2 ∧
      (insert_row_loop (rowToList rr) x i0 i1).2 ≤ x.length ∧
      ((insert_row_loop (rowToList rr) x i0 i1).1 = 0 ∨
        rowLt (x.getD (insert_row_loop (rowToList rr) x i0 i1).1 (0, 0, 0))
          rr) ∧
      ((insert_row_loop (rowToList rr) x i0 i1).2 = x.length ∨
        rowLt rr
          (x.getD (insert_row_loop (rowToList rr) x i0 i1).2 (0, 0, 0)))) := by
  intro n
  induction n with
  | zero =>
    intro i0 i1 h1 h2
    omega
  | succ n ih =>
    intro i0 i1 hle hlt hub hlow hhigh
    rw [insert_row_loop]
    by_cases hgap : 1 < i1 - i0
    · rw [if_pos hgap]
      have hcc : compare_row (rowToList rr)
          (rowToList (x.getD ((i0 + i1) / 2) (0, 0, 0))) =
          rowCmp rr (x.getD ((i0 + i1) / 2) (0, 0, 0)) := rfl
      rw [hcc]
      have hilen : (i0 + i1) / 2 < x.length := by omega
      have hc0 : rowCmp rr (x.getD ((i0 + i1) / 2) (0, 0, 0)) ≠ 0 := by
        intro h0
        refine hmem ?_
        rw [(rowCmp_zero_iff _ _).mp h0]
        exact getD_mem hilen
      by_cases hc : rowCmp rr (x.getD ((i0 + i1) / 2) (0, 0, 0)) = 1
      · rw [if_pos hc]
        exact ih ((i0 + i1) / 2) i1 (by omega) (by omega) hub
          (Or.inr ((rowCmp_pos_iff _ _).mp hc)) hhigh
      · rw [if_neg hc]
        have hcneg : rowCmp rr (x.getD ((i0 + i1) / 2) (0, 0, 0)) = -1 := by
          rcases rowCmp_trichotomy rr (x.getD ((i0 + i1) / 2) (0, 0, 0)) with
            h | h | h
          · exact absurd h hc
          · exact h
          · exact absurd h hc0
        exact ih i0 ((i0 + i1) / 2) (by omega) (by omega) (by omega) hlow
          (Or.inr hcneg)
    · rw [if_neg hgap]
      exact ⟨by omega, hub, hlow, hhigh⟩

/-- Inserting a row between its strict lower and upper neighbors keeps
the array strictly sorted and permutes the row into the array. -/
theorem insert_at_sorted (rr : Row) (x : List Row) (ind : Nat)
    (hs : List.Pairwise rowLt x)
    (hlow : ∀ k, k < ind → ∀ hk2 : k < x.length,
      rowLt (x.getD k (0, 0, 0)) rr)
    (hhigh : ∀ k, ind ≤ k → ∀ hk2 : k < x.length,
      rowLt rr (x.getD k (0, 0, 0))) :
    List.Pairwise rowLt (x.take ind ++ [rr] ++ x.drop ind) ∧
    (x.take ind ++ [rr] ++ x.drop ind).Perm (rr :: x) := by
  have hmem_take : ∀ a ∈ x.take ind, rowLt a rr := by
    intro a ha
    rcases List.mem_take_iff_getElem.mp ha with ⟨i, hm, hg⟩
    have hil : i < x.length := lt_of_lt_of_le hm inf_le_right
    have hii : i < ind := lt_of_lt_of_le hm inf_le_left
    have hl := hlow i hii hil
    rw [getD_eq_get hil, List.get_eq_getElem, hg] at hl
    exact hl
  have hmem_drop : ∀ b ∈ x.drop ind, rowLt rr b := by
    intro b hb
    rcases List.mem_iff_getElem.mp hb with ⟨j, hj, hg⟩
    have hjlen : ind + j < x.length := by
      have := List.length_drop ind x
      omega
    have hgd : (x.drop ind)[j] = x[ind + j] := List.getElem_drop x
    have hh := hhigh (ind + j) (by omega) hjlen
    rw [getD_eq_get hjlen, List.get_eq_getElem] at hh
    rw [← hgd, hg] at hh
    exact hh
  constructor
  · rw [List.append_assoc, List.pairwise_append]
    refine ⟨List.Pairwise.sublist (List.take_sublist ind x) hs, ?_, ?_⟩
    · rw [List.singleton_append, List.pairwise_cons]
      exact ⟨hmem_drop, List.Pairwise.sublist (List.drop_sublist ind x) hs⟩
    · intro a ha b hb
      rcases List.mem_append.mp hb with hb | hb
      · rw [List.mem_singleton.mp hb]
        exact hmem_take a ha
      · exact rowLt_trans (hmem_take a ha) (hmem_drop b hb)
  · have h1 : x.take ind ++ [rr] ++ x.drop ind =
        x.take ind ++ rr :: x.drop ind := by
      rw [List.append_assoc]
      rfl
    rw [h1]
    have h2 : (x.take ind ++ rr :: x.drop ind).Perm
        (rr :: (x.take ind ++ x.drop ind)) := List.perm_middle
    rw [List.take_append_drop] at h2
    exact h2

/-- insert_missing_row_in_sorted_array keeps a strictly sorted
nonempty array strictly sorted and adds exactly the missing row. -/
theorem insert_missing_row_spec (rr : Row) (x : List Row)
    (hs : List.Pairwise rowLt x) (hmem : rr ∉ x) (hx : x ≠ []) :
    List.Pairwise rowLt (insert_missing_row_in_sorted_array rr x) ∧
    (insert_missing_row_in_sorted_array rr x).Perm (rr :: x) := by
  obtain ⟨hp12, hp2len, hplow, hphigh⟩ :=
    insert_row_loop_spec rr x hmem x.length 0 x.length (by omega)
      (List.length_pos.mpr hx) (le_refl _) (Or.inl rfl) (Or.inl rfl)
  unfold insert_missing_row_in_sorted_array
  dsimp only
  set p := insert_row_loop (rowToList rr) x 0 x.length with hpdef
  have hlen1 : 0 < x.length := List.length_pos.mpr hx
  by_cases hind : 1 < p.2
  · rw [if_pos hind]
    have hp1pos : 0 < p.1 := by omega
    have hp1len : p.1 < x.length := by omega
    have hplow2 : rowLt (x.getD p.1 (0, 0, 0)) rr := by
      rcases hplow with h | h
      · omega
      · exact h
    refine insert_at_sorted rr x p.2 hs ?_ ?_
    · intro k hk hk2
      have hk1 : k ≤ p.1 := by omega
      rcases Nat.lt_or_ge k p.1 with hkk | hkk
      · exact rowLt_trans (pairwise_getD hs hkk hp1len) hplow2
      · have hke : k = p.1 := by omega
        rw [hke]
        exact hplow2
    · intro k hk hk2
      have hp2ne : p.2 ≠ x.length := by omega
      have hphigh2 : rowLt rr (x.getD p.2 (0, 0, 0)) := by
        rcases hphigh with h | h
        · exact absurd h hp2ne
        · exact h
      rcases Nat.lt_or_ge p.2 k with hkk | hkk
      · exact rowLt_of_lt_of_le hphigh2
          ((rowLe_iff _ _).mpr (Or.inl (pairwise_getD hs hkk hk2)))
      · have hke : k = p.2 := by omega
        rw [hke]
        exact hphigh2
  · rw [if_neg hind]
    have hp2 : p.2 = 1 := by omega
    have hp1 : p.1 = 0 := by omega
    have hcc : compare_row (rowToList rr) (rowToList (x.getD p.1 (0, 0, 0))) =
        rowCmp rr (x.getD p.1 (0, 0, 0)) := rfl
    rw [hcc]
    have hc0 : rowCmp rr (x.getD p.1 (0, 0, 0)) ≠ 0 := by
      intro h0
      refine hmem ?_
      rw [(rowCmp_zero_iff _ _).mp h0]
      exact getD_mem (by omega)
    by_cases hc : rowCmp rr (x.getD p.1 (0, 0, 0)) = 1
    · rw [if_pos hc]
      have hlow2 : rowLt (x.getD (0 : Nat) (0, 0, 0)) rr := by
        have := (rowCmp_pos_iff _ _).mp hc
        rw [hp1] at this
        exact this
      refine insert_at_sorted rr x 1 hs ?_ ?_
      · intro k hk hk2
        have hke : k = 0 := by omega
        rw [hke]
        exact hlow2
      · intro k hk hk2
        have hphigh2 : rowLt rr (x.getD (1 : Nat) (0, 0, 0)) := by
          rcases hphigh with h | h
          · rw [hp2] at h
            omega
          · rw [hp2] at h
            exact h
        rcases Nat.lt_or_ge 1 k with hkk | hkk
        · exact rowLt_of_lt_of_le hphigh2
            ((rowLe_iff _ _).mpr (Or.inl (pairwise_getD hs hkk hk2)))
        · have hke : k = 1 := by omega
          rw [hke]
          exact hphigh2
    · rw [if_neg hc]
      have hcneg : rowCmp rr (x.getD p.1 (0, 0, 0)) = -1 := by
        rcases rowCmp_trichotomy rr (x.getD p.1 (0, 0, 0)) with h | h | h
        · exact absurd h hc
        · exact h
        · exact absurd h hc0
      have hhigh0 : rowLt rr (x.getD (0 : Nat) (0, 0, 0)) := by
        rw [hp1] at hcneg
        exact hcneg
      refine insert_at_sorted rr x 0 hs ?_ ?_
      · intro k hk
        omega
      · intro k hk hk2
        rcases Nat.lt_or_ge 0 k with hkk | hkk
        · exact rowLt_of_lt_of_le hhigh0
            ((rowLe_iff _ _).mpr (Or.inl (pairwise_getD hs hkk hk2)))
        · have hke : k = 0 := by omega
          rw [hke]
          exact hhigh0

/-- Membership in list(xrange(-r, r + 1)). -/
theorem mem_irange {r : Nat} {z : ℤ} :
    z ∈ irange r ↔ -(r : ℤ) ≤ z ∧ z ≤ r := by
  unfold irange
  rw [List.mem_map]
  constructor
  · rintro ⟨k, hk, he⟩
    rw [List.mem_range] at hk
    omega
  · rintro ⟨h1, h2⟩
    refine ⟨(z + r).toNat, ?_, ?_⟩
    · rw [List.mem_range]
      omega
    · dsimp only
      omega

/-- The xrange list has no duplicates. -/
theorem irange_nodup (r : Nat) : (irange r).Nodup := by
  unfold irange
  apply List.Nodup.map
  · intro a b hab
    dsimp only at hab
    omega
  · exact List.nodup_range _

/-- Every cell produced for a fixed (dx, dy) column of a shell has the
shell radius as its Chebyshev norm. -/
theorem chebNorm_of_mem_shell {r : Nat} {p : Row}
    (hp : p ∈ outer_layer_of_cube r) : chebNorm p = r := by
  unfold outer_layer_of_cube at hp
  simp only [List.mem_flatMap, List.mem_map] at hp
  obtain ⟨dx, hdx, dy, hdy, dz, hdz, he⟩ := hp
  rw [← he]
  obtain ⟨hdx1, hdx2⟩ := mem_irange.mp hdx
  obtain ⟨hdy1, hdy2⟩ := mem_irange.mp hdy
  unfold chebNorm
  by_cases hcond : dx.natAbs = r ∨ dy.natAbs = r
  · rw [if_pos hcond] at hdz
    obtain ⟨hdz1, hdz2⟩ := mem_irange.mp hdz
    dsimp only
    omega
  · rw [if_neg hcond] at hdz
    have : dz = -(r : ℤ) ∨ dz = (r : ℤ) := by
      rcases List.mem_cons.mp hdz with h | h
      · exact Or.inl h
      · rcases List.mem_singleton.mp h with h
        exact Or.inr h
    simp only [not_or] at hcond
    dsimp only
    omega

/-- The corner cell: every shell is nonempty. -/
theorem shell_nonempty (r : Nat) :
    ((r : ℤ), (r : ℤ), (r : ℤ)) ∈ outer_layer_of_cube r := by
  unfold outer_layer_of_cube
  simp only [List.mem_flatMap, List.mem_map]
  refine ⟨r, mem_irange.mpr (by omega), r, mem_irange.mpr (by omega),
    r, ?_, rfl⟩
  rw [if_pos (Or.inl (by simp))]
  exact mem_irange.mpr (by omega)

/-- A shell of positive radius has no duplicate cells. -/
theorem shell_nodup {r : Nat} (hr : 0 < r) :
    (outer_layer_of_cube r).Nodup := by
  unfold outer_layer_of_cube
  rw [List.nodup_flatMap]
  constructor
  · intro dx _
    rw [List.nodup_flatMap]
    constructor
    · intro dy _
      refine List.Nodup.map ?_ ?_
      · intro z1 z2 h
        simpa using h
      · by_cases hcond : dx.natAbs = r ∨ dy.natAbs = r
        · rw [if_pos hcond]
          exact irange_nodup r
        · rw [if_neg hcond]
          refine List.nodup_cons.mpr ⟨?_, List.nodup_singleton _⟩
          intro h
          rw [List.mem_singleton] at h
          omega
    · refine (List.pairwise_iff_get.mpr ?_)
      intro i j hij
      intro z hz1 hz2
      simp only [List.mem_map] at hz1 hz2
      obtain ⟨z1, _, he1⟩ := hz1
      obtain ⟨z2, _, he2⟩ := hz2
      rw [← he2] at he1
      have : (irange r).get i = (irange r).get j := by
        have h1 := congrArg (fun q : Row => q.2.1) he1
        simpa using h1
      have h3 := (List.Nodup.get_inj_iff (irange_nodup r)).mp this
      exact absurd h3 (ne_of_lt hij)
  · refine (List.pairwise_iff_get.mpr ?_)
    intro i j hij
    intro z hz1 hz2
    simp only [List.mem_flatMap, List.mem_map] at hz1 hz2
    obtain ⟨dy1, _, dz1, _, he1⟩ := hz1
    obtain ⟨dy2, _, dz2, _, he2⟩ := hz2
    rw [← he2] at he1
    have : (irange r).get i = (irange r).get j := by
      have h1 := congrArg (fun q : Row => q.1) he1
      simpa using h1
    have := List.Nodup.get_inj_iff (irange_nodup r) |>.mp this
    omega

/-- The bounded neighbor list has no duplicate cells: the shells are
disjoint by Chebyshev norm and each has none internally. -/
theorem neighbors_nodup (maxRad : Nat) :
    (neighbors_by_distance_upTo maxRad).Nodup := by
  unfold neighbors_by_distance_upTo
  rw [List.nodup_flatMap]
  constructor
  · intro k _
    exact shell_nodup (Nat.succ_pos k)
  · refine List.Pairwise.imp ?_ (List.pairwise_lt_range maxRad)
    intro a b hab
    intro p hpa hpb
    have h1 := chebNorm_of_mem_shell hpa
    have h2 := chebNorm_of_mem_shell hpb
    omega

/-- At least one cell per shell. -/
theorem neighbors_length (maxRad : Nat) :
    maxRad ≤ (neighbors_by_distance_upTo maxRad).length := by
  induction maxRad with
  | zero => simp
  | succ n ih =>
    unfold neighbors_by_distance_upTo at *
    rw [List.range_succ, List.flatMap_append, List.length_append]
    have h1 : 0 < (outer_layer_of_cube (n + 1)).length :=
      List.length_pos_of_mem (shell_nonempty (n + 1))
    have h2 : ([n].flatMap (fun k => outer_layer_of_cube (k + 1))).length =
        (outer_layer_of_cube (n + 1)).length := by
      simp
    omega

/-- A duplicate free list included in another is no longer than it. -/
theorem nodup_subset_length {A B : List Row} (hA : A.Nodup)
    (hsub : ∀ x ∈ A, x ∈ B) : A.length ≤ B.length := by
  have h1 : A.toFinset.card = A.length := List.toFinset_card_of_nodup hA
  have h2 : A.toFinset ⊆ B.toFinset := by
    intro x hx
    exact List.mem_toFinset.mpr (hsub x (List.mem_toFinset.mp hx))
  have h3 := Finset.card_le_card h2
  have h4 := List.toFinset_card_le B
  omega

/-- The bounded shell search of the relocation always finds a cell that
is not yet occupied: the candidate cells are pairwise distinct and
outnumber the occupied rows. -/
theorem relocate_one_spec (Xm : Row) (Xc : List Row)
    (hs : List.Pairwise rowLt Xc) (hne : Xc ≠ []) :
    ∃ X, relocate_one Xm Xc = some X ∧ X ∉ Xc := by
  unfold relocate_one
  cases hfind : ((neighbors_by_distance_upTo (Xc.length + 1)).map
      (fun dX => (Xm.1 + dX.1, Xm.2.1 + dX.2.1, Xm.2.2 + dX.2.2))).find?
      (fun X => !(row_is_in_sorted_array X Xc)) with
  | none =>
    exfalso
    have hall : ∀ X ∈ (neighbors_by_distance_upTo (Xc.length + 1)).map
        (fun dX => (Xm.1 + dX.1, Xm.2.1 + dX.2.1, Xm.2.2 + dX.2.2)),
        X ∈ Xc := by
      intro X hX
      have h1 := List.find?_eq_none.mp hfind X hX
      have h2 : row_is_in_sorted_array X Xc = true := by
        rcases Bool.eq_false_or_eq_true (row_is_in_sorted_array X Xc) with
          h | h
        · exact h
        · rw [h] at h1
          simp at h1
      exact (row_is_in_sorted_array_iff hs hne).mp h2
    have hnodC : ((neighbors_by_distance_upTo (Xc.length + 1)).map
        (fun dX => (Xm.1 + dX.1, Xm.2.1 + dX.2.1, Xm.2.2 + dX.2.2))).Nodup := by
      refine List.Nodup.map ?_ (neighbors_nodup _)
      intro a b hab
      simp only [Prod.mk.injEq] at hab
      rcases a with ⟨a1, a2, a3⟩
      rcases b with ⟨b1, b2, b3⟩
      simp only [Prod.mk.injEq]
      simp only [] at hab
      omega
    have hlen := nodup_subset_length hnodC hall
    rw [List.length_map] at hlen
    have := neighbors_length (Xc.length + 1)
    omega
  | some X =>
    refine ⟨X, rfl, ?_⟩
    have h1 := List.find?_some hfind
    intro hmem
    have h2 := (row_is_in_sorted_array_iff hs hne).mpr hmem
    rw [h2] at h1
    simp at h1

/-- The relocation loop adds one fresh cell per duplicate row and keeps
the array strictly sorted. -/
theorem grid_relocate_spec (ms : List Row) :
    ∀ Xc : List Row, List.Pairwise rowLt Xc → Xc ≠ [] →
    (grid_relocate ms Xc).length = Xc.length + ms.length ∧
    List.Pairwise rowLt (grid_relocate ms Xc) := by
  induction ms with
  | nil =>
    intro Xc hs _
    exact ⟨by simp [grid_relocate], hs⟩
  | cons m ms ih =>
    intro Xc hs hne
    obtain ⟨X, hfind, hnotmem⟩ := relocate_one_spec m Xc hs hne
    rw [grid_relocate, hfind]
    obtain ⟨hsort2, hperm2⟩ := insert_missing_row_spec X Xc hs hnotmem hne
    have hlen2 : (insert_missing_row_in_sorted_array X Xc).length =
        Xc.length + 1 := by
      rw [hperm2.length_eq]
      simp
    have hne2 : insert_missing_row_in_sorted_array X Xc ≠ [] := by
      intro he
      rw [he] at hlen2
      simp at hlen2
    obtain ⟨hl, hp⟩ := ih _ hsort2 hne2
    refine ⟨?_, hp⟩
    rw [hl, hlen2]
    simp only [List.length_cons]
    omega

/-- C1 counterexample: on the empty point cloud, grid crashes rather
than returning an empty array.  The overlap mask np.hstack((overlap,
False)) has length 1 while the sorted array has 0 rows, so the boolean
indexing Xc[mask] raises an IndexError (modelled as none). -/
theorem aggregate_grid_empty_raises :
    aggregate_grid [] 1 (fun l => l) = none := rfl

/-- C1 (amended to nonempty clouds): for every nonempty input point
cloud and every resolution, Aggregate.grid terminates normally and
returns an array with exactly as many rows as the cloud, all rows
pairwise distinct; the shuffle stands for np.random.shuffle, an
arbitrary permutation. -/
theorem aggregate_grid_spec (X : List Pt) (res : ℚ)
    (shuffle : List Row → List Row) (hX : X ≠ [])
    (hshuf : ∀ l : List Row, (shuffle l).Perm l) :
    ∃ out, aggregate_grid X res shuffle = some out ∧
      out.length = X.length ∧ out.Nodup := by
  have hne : np_lexsort (X.map (gridRound res)) ≠ [] := by
    intro h
    apply hX
    have h1 := np_lexsort_perm (X.map (gridRound res))
    rw [h] at h1
    exact List.map_eq_nil_iff.mp (h1.symm.eq_nil)
  have hbody : aggregate_grid X res shuffle =
      some (grid_relocate
        (shuffle (selMask (np_lexsort (X.map (gridRound res))) true))
        (selMask (np_lexsort (X.map (gridRound res))) false)) := by
    have h0 : aggregate_grid X res shuffle =
        match boolIndex (np_lexsort (X.map (gridRound res)))
            (overlapMask (np_lexsort (X.map (gridRound res)))) true,
          boolIndex (np_lexsort (X.map (gridRound res)))
            (overlapMask (np_lexsort (X.map (gridRound res)))) false with
        | some Xc_overlap, some Xc =>
          some (grid_relocate (shuffle Xc_overlap) Xc)
        | _, _ => none := rfl
    rw [h0, boolIndex_eq_selMask hne true, boolIndex_eq_selMask hne false]
  obtain ⟨hlen, hpair⟩ := grid_relocate_spec
    (shuffle (selMask (np_lexsort (X.map (gridRound res))) true))
    (selMask (np_lexsort (X.map (gridRound res))) false)
    (selMask_false_sorted (np_lexsort_sorted _))
    (selMask_false_ne_nil hne)
  refine ⟨_, hbody, ?_, ?_⟩
  · rw [hlen]
    have h1 :=
      (hshuf (selMask (np_lexsort (X.map (gridRound res))) true)).length_eq
    have h2 := selMask_length_split (np_lexsort (X.map (gridRound res)))
    have h3 := (np_lexsort_perm (X.map (gridRound res))).length_eq
    rw [List.length_map] at h3
    omega
  · exact List.Pairwise.imp (fun h => rowLt_ne h) hpair

/-- Witness for C1 on a concrete two point cloud with the identity
shuffle. -/
theorem aggregate_grid_spec_witness :
    ∃ out, aggregate_grid [((0 : ℚ), (0 : ℚ), (0 : ℚ)),
      ((0 : ℚ), (0 : ℚ), (0 : ℚ))] 1 (fun l => l) = some out ∧
      out.length = 2 ∧ out.Nodup :=
  aggregate_grid_spec _ 1 (fun l => l) (List.cons_ne_nil _ _)
    (fun l => List.Perm.refl l)

/-- Witness for C10 with the identity rotation on a concrete cloud. -/
theorem project_on_dim_direction_restores_witness :
    (project_on_dim_direction [(1, 2, 3), (4, 5, 6)] 1 idMat3).2.1 =
      [(1, 2, 3), (4, 5, 6)] ∧
    (project_on_dim_direction [(1, 2, 3), (4, 5, 6)] 1 idMat3).2.2 =
      update_extent [(1, 2, 3), (4, 5, 6)] :=
  project_on_dim_direction_restores [(1, 2, 3), (4, 5, 6)] 1 idMat3
    (by norm_num [matMul, matT, idMat3, vecMulMat, Prod.ext_iff])

end Aggregation
